import Mathlib

/-!
# Verification of the kerncraft ECM cache-access core

Shallow embedding of the cache-access simulation and kernel access-pattern
extraction of the kerncraft repository (src/ecm.py, src/models/ecm.py,
src/kerncraft/kerncraft.py), together with proofs settling the frozen claims
about it.

The source is Python 2: `/` on integers is floor division and `%` is floor
modulus, embedded here as `Int.fdiv` / `Int.fmod` (exact Python semantics for
any nonzero divisor).  Machine quantities that are Python floats (clock rate,
memory bandwidth, transfer cost) are embedded as rationals.
-/

namespace Kerncraft

/- The core arithmetic on `Rat` is marked `@[irreducible]`, which blocks
`decide` on concrete machine models; restore default reducibility so that
concrete runs of the embedded model evaluate. -/
set_option allowUnsafeReducibility true in
attribute [semireducible] Rat.mul Rat.add Rat.sub Rat.div Rat.neg Rat.inv

deriving instance DecidableEq for Except

/-- Python 2 integer division (`//`-style floor division, which is what `/`
means on ints in Python 2). -/
def pydiv (a b : Int) : Int := Int.fdiv a b

/-- Python 2 integer modulus (floor modulus). -/
def pymod (a b : Int) : Int := Int.fmod a b

/-! ## `blocking` (src/ecm.py lines 33-52, identical in src/models/ecm.py)

```python
def blocking(indices, block_size, initial_boundary=0):
    blocks = []
    for idx in indices:
        bl_idx = (idx-initial_boundary)/block_size
        if bl_idx not in blocks:
            blocks.append(bl_idx)
    blocks.sort()
    return blocks
```
-/

/-- The accumulation pass of `blocking`: collect block indices in first
occurrence order, skipping ones already present. -/
def blockingCollect (indices : List Int) (block_size initial_boundary : Int)
    (acc : List Int) : List Int :=
  indices.foldl
    (fun blocks idx =>
      let bl_idx := pydiv (idx - initial_boundary) block_size
      if bl_idx ∈ blocks then blocks else blocks ++ [bl_idx])
    acc

/-- `blocking` from src/ecm.py: splits a list of integers into blocks of
`block_size` and returns the sorted list of distinct block indices. -/
def blocking (indices : List Int) (block_size : Int)
    (initial_boundary : Int := 0) : List Int :=
  (blockingCollect indices block_size initial_boundary []).insertionSort (· ≤ ·)

/-! ## Interval set

Modelled from the spec: the `intervals` module imported by src/ecm.py and
src/models/ecm.py is not under src/.  Per spec §3 it is "a set of half-open
integer ranges; invariant: ranges are stored disjoint and sorted", supporting
membership test (`offset in cache`), size (`len(cache)` = total count of
covered integer points), the number of stored ranges (`len(cache._data)`),
and the merge operation used at the call sites
(`cache &= intervals.Intervals([first, last+1], sane=True)`), which unions
the new ranges into the set.  The call sites pass no capacity cap, so no
clipping is modelled. -/

/-- An interval set: a list of half-open ranges `[lo, hi)`.  The constructors
below keep the list sorted, the ranges disjoint and each range nonempty
(`lo < hi`), mirroring the stored representation (`cache._data`). -/
def Intervals := List (Int × Int)
deriving Repr, DecidableEq

instance : Inhabited Intervals := ⟨([] : List (Int × Int))⟩

/-- The empty interval set (`intervals.Intervals()`). -/
def Intervals.empty : Intervals := ([] : List (Int × Int))

/-- Membership test (`offset in cache`). -/
def Intervals.containsB (s : Intervals) (x : Int) : Bool :=
  (s : List (Int × Int)).any fun r => decide (r.1 ≤ x) && decide (x < r.2)

/-- Total number of covered integer points (`len(cache)`). -/
def Intervals.size (s : Intervals) : Int :=
  ((s : List (Int × Int)).map fun r => r.2 - r.1).sum

/-- Number of stored disjoint ranges (`len(cache._data)`). -/
def Intervals.numRanges (s : Intervals) : Nat :=
  (s : List (Int × Int)).length

/-- Insertion worker: insert half-open `[a, b)` into a sorted disjoint list,
merging every range it overlaps or touches. -/
def Intervals.insertGo : List (Int × Int) → Int → Int → List (Int × Int)
  | [], a, b => [(a, b)]
  | (c, d) :: rest, a, b =>
    if b < c then (a, b) :: (c, d) :: rest
    else if d < a then (c, d) :: Intervals.insertGo rest a b
    else Intervals.insertGo rest (min a c) (max b d)

/-- Union of an interval set with one half-open range (a degenerate or
reversed range adds nothing). -/
def Intervals.addRange (s : Intervals) (r : Int × Int) : Intervals :=
  if r.1 < r.2 then Intervals.insertGo (s : List (Int × Int)) r.1 r.2 else s

/-- Build an interval set from a list of half-open ranges
(`intervals.Intervals(*ranges, sane=True)`). -/
def Intervals.ofRanges (rs : List (Int × Int)) : Intervals :=
  rs.foldl Intervals.addRange Intervals.empty

/-- Union of two interval sets (`cache &= new_cache`). -/
def Intervals.iunion (s t : Intervals) : Intervals :=
  (t : List (Int × Int)).foldl Intervals.addRange s

/-- The set of integer points covered by an interval set, as a `Finset`. -/
def Intervals.covered (s : Intervals) : Finset Int :=
  (s : List (Int × Int)).foldr (fun r acc => Finset.Ico r.1 r.2 ∪ acc) ∅

/-- The stored range list of an interval set (the raw `cache._data`). -/
def Intervals.toL (s : Intervals) : List (Int × Int) := s

/-- The representation invariant of an interval set: every stored range is
nonempty. -/
def Intervals.Valid (s : Intervals) : Prop :=
  ∀ r ∈ s.toL, r.1 < r.2

/-! ## Kernel access model

The part of the processed `Kernel` object that `ECM.calculate_cache_access`
consumes: `_variables` (name ↦ datatype and optional dimension tuple),
`_sources` / `_destinations` (name ↦ list of accesses, each access a list of
per-dimension offset descriptors, outermost dimension first), and
`_loop_stack` (only the loop index names are read, via `loop_order`). -/

/-- One dimension of an array access as recorded by `Kernel._get_offsets`:
`('rel', index_name, offset)`, `('abs', constant)` or `('dir',)`. -/
inductive AccessDim
  | rel (idx : String) (offset : Int)
  | abs (v : Int)
  | dir
deriving Repr, DecidableEq

/-- The processed kernel state used by the simulator. -/
structure KernelModel where
  /-- `_variables`: name, datatype name, `None` for scalars or the dimension
  tuple for arrays. -/
  _variables : List (String × String × Option (List Int))
  /-- `_sources`: reads, name ↦ recorded accesses. -/
  _sources : List (String × List (List AccessDim))
  /-- `_destinations`: writes, name ↦ recorded accesses. -/
  _destinations : List (String × List (List AccessDim))
  /-- the loop index names of `_loop_stack`, outermost first. -/
  _loop_stack : List String
deriving Repr, DecidableEq

/-- Errors the simulation can raise (Python exceptions), plus fuel
exhaustion of the embedded fixed-point loop. -/
inductive CalcErr
  /-- the three-way tuple unpacking / `'rel'`-only assertion in
  `_calculate_relative_offset` fails on a non-`rel` offset descriptor. -/
  | unsupportedOffset
  /-- `ZeroDivisionError` in the trace-length update when `trace_count == 0`. -/
  | divByZero
  /-- the embedding's fuel for the `while updated_length` loop ran out. -/
  | outOfFuel
deriving Repr, DecidableEq

/-- `datatype_size['double']`; `calculate_cache_access` hard-codes
`element_size = datatype_size['double']`. -/
def element_size : Int := 8

/-- `loop_order = ''.join(map(lambda l: l[0], self.kernel._loop_stack))`. -/
def loop_order (m : KernelModel) : String :=
  String.join m._loop_stack

/-- `loop_order[-1]`: the last character of `loop_order` as a one-character
string (Python string indexing yields a one-character string). -/
def innermostIndex (m : KernelModel) : String :=
  match (loop_order m).toList.getLast? with
  | some c => String.singleton c
  | none => ""

/-- `ECM._calculate_relative_offset` (src/ecm.py lines 469-487): the offset
from the iteration center in elements.  `offset_type, idx_name, dim_offset =
offset_info` unpacks a 3-tuple and the subsequent assertion requires
`offset_type == 'rel'`; an `('abs', v)` or `('dir',)` descriptor raises
(`ValueError` on unpacking / `AssertionError`), embedded as
`CalcErr.unsupportedOffset`. -/
def _calculate_relative_offset (base_dims : List Int)
    (access_dimensions : List AccessDim) : Except CalcErr Int :=
  go 0 access_dimensions 0
where
  go (dim : Nat) : List AccessDim → Int → Except CalcErr Int
    | [], acc => .ok acc
    | .rel _ dim_offset :: rest, acc =>
      go (dim + 1) rest (acc + dim_offset * ((base_dims.drop (dim + 1)).foldl (· * ·) 1))
    | .abs _ :: _, _ => .error .unsupportedOffset
    | .dir :: _, _ => .error .unsupportedOffset

/-- `ECM._calculate_iteration_offset` (src/ecm.py lines 489-503): the element
offset from one innermost-loop iteration to the next, summing the stride of
every dimension of `index_order` whose index letter equals `loop_index`. -/
def _calculate_iteration_offset (base_dims : List Int) (index_order : String)
    (loop_index : String) : Int :=
  go 0 index_order.toList 0
where
  go (dim : Nat) : List Char → Int → Int
    | [], acc => acc
    | c :: rest, acc =>
      let acc := if loop_index = String.singleton c then
        acc + ((base_dims.drop (dim + 1)).foldl (· * ·) 1) else acc
      go (dim + 1) rest acc

/-- `ECM._get_index_order`: `''.join(map(lambda d: d[1], access_dimensions))`.
Only evaluated on all-`rel` accesses (a non-`rel` descriptor makes
`_calculate_relative_offset` raise first, and the code computes the relative
offset before the index order). -/
def _get_index_order (access_dimensions : List AccessDim) : String :=
  String.join (access_dimensions.map fun d =>
    match d with
    | .rel idx _ => idx
    | _ => "")

/-- `ECM._expand_to_cacheline_blocks` (src/ecm.py lines 509-520): widen
`[first, last]` to cache-line boundaries.  Returns the inclusive pair
`[first', last']`. -/
def _expand_to_cacheline_blocks (elements_per_cacheline first last : Int) :
    Int × Int :=
  (first - pymod first elements_per_cacheline,
   last - pymod last elements_per_cacheline + elements_per_cacheline - 1)

/-- The access filter in `calculate_cache_access` (src/ecm.py lines 542-545):
keep an access iff `loop_order[-1] in map(lambda a: a[1], acs)`.  For a
`rel` descriptor `a[1]` is the index name; for an `abs` descriptor it is the
integer constant, which never equals the one-character string (a `('dir',)`
descriptor on an array variable would raise `IndexError`; no claim exercises
that corner, and it is modelled as not matching). -/
def usesInnermost (inner : String) (acs : List AccessDim) : Bool :=
  acs.any fun d =>
    match d with
    | .rel idx _ => idx == inner
    | _ => false

/-- Association-list helper: append one value to the list stored at `key`
(`d.setdefault(key, []); d[key].append(v)`). -/
def appendAt (m : List (String × List Int)) (key : String) (v : Int) :
    List (String × List Int) :=
  match m with
  | [] => [(key, [v])]
  | (k, l) :: rest =>
    if k = key then (k, l ++ [v]) :: rest else (k, l) :: appendAt rest key v

/-- Association-list helper: replace the value stored at `key`. -/
def setAt (m : List (String × List Int)) (key : String) (v : List Int) :
    List (String × List Int) :=
  match m with
  | [] => [(key, v)]
  | (k, l) :: rest =>
    if k = key then (k, v) :: rest else (k, l) :: setAt rest key v

/-- `sorted(list(set(l)), reverse=True)`: distinct values in descending
order. -/
def sortedDistinctDesc (l : List Int) : List Int :=
  (l.foldl (fun acc x => if x ∈ acc then acc else acc ++ [x]) []).insertionSort (· ≥ ·)

/-- `sorted(l, reverse=True)`. -/
def sortDesc (l : List Int) : List Int :=
  l.insertionSort (· ≥ ·)

/-- Association-list lookup with Python's `d.get(key, default)` semantics. -/
def lookupD {α β : Type} [BEq α] (m : List (α × β)) (key : α) (dfl : β) : β :=
  (m.lookup key).getD dfl

/-! ## Phase 1 of `calculate_cache_access` (src/ecm.py lines 525-582):
compile the per-variable, per-index-order read and write offset lists and
unroll one cache line's worth of innermost-loop iterations. -/

/-- The offset maps: variable name ↦ (index order ↦ offsets). -/
abbrev OffsetMap := List (String × List (String × List Int))

/-- The base pass over the filtered accesses of one variable
(src/ecm.py lines 548-557): compute each access's relative offset and append
it under its index order. -/
def compileBase (base_dims : List Int) (accesses : List (List AccessDim))
    (m : List (String × List Int)) :
    Except CalcErr (List (String × List Int)) :=
  match accesses with
  | [] => .ok m
  | r :: rest =>
    match _calculate_relative_offset base_dims r with
    | .error e => .error e
    | .ok offset =>
      compileBase base_dims rest (appendAt m (_get_index_order r) offset)

/-- One unrolled step `i` over the filtered accesses of one variable
(src/ecm.py lines 561-582): append `offset + i*iteration_offset` under the
access's index order, then replace that entry by its distinct descending
sort (`sorted(list(set(...)), reverse=True)`). -/
def compileUnrollStep (base_dims : List Int) (inner : String) (i : Int)
    (accesses : List (List AccessDim)) (m : List (String × List Int)) :
    Except CalcErr (List (String × List Int)) :=
  match accesses with
  | [] => .ok m
  | r :: rest =>
    let idx_order := _get_index_order r
    match _calculate_relative_offset base_dims r with
    | .error e => .error e
    | .ok offset =>
      let offset := offset + i * _calculate_iteration_offset base_dims idx_order inner
      let m := appendAt m idx_order offset
      let m := setAt m idx_order (sortedDistinctDesc (lookupD m idx_order []))
      compileUnrollStep base_dims inner i rest m

/-- Worker for `compileUnroll`: run `compileUnrollStep` for each step value
in order. -/
def compileUnrollGo (base_dims : List Int) (inner : String)
    (accesses : List (List AccessDim)) (steps : List Int)
    (m : List (String × List Int)) :
    Except CalcErr (List (String × List Int)) :=
  match steps with
  | [] => .ok m
  | i :: rest =>
    match compileUnrollStep base_dims inner i accesses m with
    | .error e => .error e
    | .ok m => compileUnrollGo base_dims inner accesses rest m

/-- All unrolled steps `i = 1 .. elements_per_cacheline - 1` for one
variable's reads or writes. -/
def compileUnroll (base_dims : List Int) (inner : String)
    (elements_per_cacheline : Int) (accesses : List (List AccessDim))
    (m : List (String × List Int)) :
    Except CalcErr (List (String × List Int)) :=
  compileUnrollGo base_dims inner accesses
    ((List.range (elements_per_cacheline - 1).toNat).map fun i => (i : Int) + 1) m

/-- Phase 1 for one array variable: filter the accesses that use the
innermost loop index, run the base pass and the unrolling for both reads and
writes.  In the source the unroll loop interleaves reads and writes per step
`i`; the read and write maps are disjoint state, so running all read steps
and then all write steps yields the same maps. -/
def compileVar (base_dims : List Int) (inner : String)
    (elements_per_cacheline : Int)
    (reads writes : List (List AccessDim)) :
    Except CalcErr (List (String × List Int) × List (String × List Int)) :=
  let reads := reads.filter (usesInnermost inner)
  let writes := writes.filter (usesInnermost inner)
  match compileBase base_dims reads [] with
  | .error e => .error e
  | .ok ro =>
    match compileBase base_dims writes [] with
    | .error e => .error e
    | .ok wo =>
      match compileUnroll base_dims inner elements_per_cacheline reads ro with
      | .error e => .error e
      | .ok ro =>
        match compileUnroll base_dims inner elements_per_cacheline writes wo with
        | .error e => .error e
        | .ok wo => .ok (ro, wo)

/-- Phase 1 over all variables: skip scalars (`var_dims is None`), build the
read and write offset maps. -/
def calcOffsets (m : KernelModel) (elements_per_cacheline : Int) :
    Except CalcErr (OffsetMap × OffsetMap) :=
  go m._variables [] []
where
  go : List (String × String × Option (List Int)) → OffsetMap → OffsetMap →
      Except CalcErr (OffsetMap × OffsetMap)
    | [], ro, wo => .ok (ro, wo)
    | (_, _, none) :: rest, ro, wo => go rest ro wo
    | (name, _, some base_dims) :: rest, ro, wo =>
      match compileVar base_dims (innermostIndex m) elements_per_cacheline
        (lookupD m._sources name []) (lookupD m._destinations name []) with
      | .error e => .error e
      | .ok (r, w) => go rest (ro ++ [(name, r)]) (wo ++ [(name, w)])

/-! ## The backward LRU trace for one cache level
(src/ecm.py lines 596-682). -/

/-- One (variable, index order) pair entering a cache level: its iteration
offset and the candidate offsets that entered the level
(`misses[cache_level][name][idx_order]` right after initialization). -/
structure PairDef where
  name : String
  idxOrder : String
  iterOffset : Int
  candidates : List Int
deriving Repr, DecidableEq

/-- The mutable per-pair state of the backward trace. -/
structure PairState where
  misses : List Int
  hits : List Int
  cache : Intervals
deriving Repr

/-- Python's `range(start, stop, step)` as a list, for a positive step (the
only use, src/ecm.py line 659-660, has `step = iter_offset >
elements_per_cacheline ≥ 1`; Python raises for a zero step, modelled as the
empty list). -/
def pyRange (start stop step : Int) : List Int :=
  if step ≤ 0 then []
  else (List.range ((pydiv (stop - start + step - 1) step).toNat)).map
    fun k => start + step * (k : Int)

/-- One step of the backward trace (src/ecm.py lines 639-662): classify
`offset` as a hit if the interval set already covers it (removing it from
the misses and recording it once in the hits), then union the offset's
cache-line-expanded trace window into the interval set. -/
def traceStep (elements_per_cacheline trace_length iter_offset : Int)
    (st : PairState) (offset : Int) : PairState :=
  let st :=
    if st.cache.containsB offset then
      { st with
        misses := st.misses.erase offset,
        hits := if offset ∈ st.hits then st.hits else st.hits ++ [offset] }
    else st
  let cache :=
    if iter_offset ≤ elements_per_cacheline then
      let fl := _expand_to_cacheline_blocks elements_per_cacheline
        (offset - iter_offset * trace_length) (offset + 1)
      st.cache.addRange (fl.1, fl.2 + 1)
    else
      let new_cache := Intervals.ofRanges
        ((pyRange (offset - iter_offset * trace_length) (offset + 1) iter_offset).map
          fun o =>
            let fl := _expand_to_cacheline_blocks elements_per_cacheline o o
            (fl.1, fl.2))
      st.cache.iunion new_cache
  { st with cache := cache }

/-- The backward trace of one pair at a given trace length: fold
`traceStep` over a snapshot of the candidate list
(`for offset in list(misses[cache_level][var_name][idx_order])`), starting
from the full candidate list as misses, no hits, and an empty interval
set. -/
def tracePair (elements_per_cacheline trace_length : Int) (pd : PairDef) :
    PairState :=
  pd.candidates.foldl
    (traceStep elements_per_cacheline trace_length pd.iterOffset)
    { misses := pd.candidates, hits := [], cache := Intervals.empty }

/-- The result of one backward trace over all pairs of a level. -/
structure TraceResult where
  pairs : List (PairDef × PairState)
  /-- `trace_count`: total number of stored distinct ranges. -/
  trace_count : Int
  /-- `cache_used_size`: total covered elements times the element size. -/
  cache_used_size : Int
deriving Repr

/-- One iteration of the `while updated_length` body: re-trace every pair at
the current trace length and accumulate `trace_count` and
`cache_used_size` (src/ecm.py lines 602-665). -/
def traceAllPairs (elements_per_cacheline trace_length : Int)
    (pairs : List PairDef) : TraceResult :=
  let traced := pairs.map fun pd =>
    (pd, tracePair elements_per_cacheline trace_length pd)
  { pairs := traced,
    trace_count := (traced.map fun p => ((p.2.cache.numRanges : Int))).sum,
    cache_used_size := (traced.map fun p => p.2.cache.size * element_size).sum }

/-- The fixed-point convergence loop of one cache level
(src/ecm.py lines 597-682), by fuel.

```python
trace_length = 0
updated_length = True
while updated_length:
    updated_length = False
    ... trace ...
    new_trace_length = trace_length + \
        ((cache_size/2 - cache_used_size)/trace_count)/element_size
    if new_trace_length > trace_length:
        trace_length = new_trace_length
        updated_length = True
```

A zero `trace_count` raises `ZeroDivisionError` (there is no guard in the
source), embedded as `CalcErr.divByZero`. -/
def levelLoop (elements_per_cacheline cache_size : Int) (pairs : List PairDef) :
    Nat → Int → Except CalcErr (TraceResult × Int)
  | 0, _ => .error .outOfFuel
  | fuel + 1, trace_length =>
    let tr := traceAllPairs elements_per_cacheline trace_length pairs
    if tr.trace_count = 0 then .error .divByZero
    else
      let new_trace_length := trace_length +
        pydiv (pydiv (pydiv cache_size 2 - tr.cache_used_size) tr.trace_count)
          element_size
      if trace_length < new_trace_length then
        levelLoop elements_per_cacheline cache_size pairs fuel new_trace_length
      else .ok (tr, trace_length)

/-! ## Level sequencing, statistics and costs
(src/ecm.py lines 584-729). -/

/-- `first-occurrence` deduplication of a key list (Python dict keys end up
unique; assigning the same key twice overwrites with an identical value). -/
def dedupKeys (l : List String) : List String :=
  l.foldl (fun acc k => if k ∈ acc then acc else acc ++ [k]) []

/-- The candidate offsets entering one (variable, index-order) pair at a
level (src/ecm.py lines 616-626): if level `cache_level - 1` has no recorded
misses, the combined read and write offsets sorted descending; otherwise a
copy of the previous level's remaining misses. -/
def pairCandidates (ro wo : OffsetMap)
    (missesByLevel : List (Int × List ((String × String) × List Int)))
    (cache_level : Int) (name idx_order : String) : List Int :=
  match missesByLevel.lookup (cache_level - 1) with
  | none =>
    sortDesc (lookupD (lookupD ro name []) idx_order [] ++
      lookupD (lookupD wo name []) idx_order [])
  | some prev => lookupD prev (name, idx_order) []

/-- The (variable, index-order) pairs traced at a level, with their iteration
offsets and candidate lists.  The source iterates the variable names of the
offset dictionaries (initialized for every kernel variable) and, per name,
the union of the read and write index orders. -/
def levelPairs (m : KernelModel) (ro wo : OffsetMap)
    (missesByLevel : List (Int × List ((String × String) × List Int)))
    (cache_level : Int) : List PairDef :=
  m._variables.flatMap fun v =>
    (dedupKeys ((lookupD ro v.1 []).map Prod.fst ++
        (lookupD wo v.1 []).map Prod.fst)).map fun idx_order =>
      { name := v.1, idxOrder := idx_order,
        iterOffset :=
          _calculate_iteration_offset ((v.2.2).getD []) idx_order (innermostIndex m),
        candidates := pairCandidates ro wo missesByLevel cache_level v.1 idx_order }

/-- The per-level statistics and data kept for the cost computation. -/
structure LevelOut where
  cache_level : Int
  cache_cycles : Option ℚ
  pairs : List (PairDef × PairState)
  trace_length : Int
  total_lines_misses : Int
  total_lines_evicts : Int
deriving Repr

/-- Number of distinct cache lines touched by a list of offsets
(`len(blocking(n, elements_per_cacheline))`). -/
def lineCount (elements_per_cacheline : Int) (l : List Int) : Int :=
  (blocking l elements_per_cacheline).length

/-- `total_lines_evicts`: every write offset list is evicted
(src/ecm.py lines 677-682, 698-700). -/
def totalLinesEvicts (wo : OffsetMap) (elements_per_cacheline : Int) : Int :=
  (wo.map fun v => ((v.2.map fun p => lineCount elements_per_cacheline p.2).sum)).sum

/-- The machine description consumed by `calculate_cache_access`
(`MachineModel` in src/ecm.py; unused fields omitted).  A cache-stack entry
is `(level, size, type, cycles)`; `cycles` is `None` for the last level. -/
structure MachineModel where
  clock : ℚ
  cl_size : Int
  mem_bw : ℚ
  cache_stack : List (Int × Int × String × Option ℚ)
deriving Repr

/-- Python 2 `round(x, 1)`: round to one decimal place, halves away from
zero. -/
def round1 (q : ℚ) : ℚ :=
  (if 0 ≤ q then (⌊q * 10 + 1/2⌋ : ℤ) else -(⌊-(q * 10) + 1/2⌋ : ℤ)) / 10

/-- Python truthiness of the `cache_cycles` entry: `None` and `0` are falsy,
any other number is truthy. -/
def truthy (cyc : Option ℚ) : Bool :=
  cyc.getD 0 ≠ 0

/-- The cost entry emitted for one level (src/ecm.py lines 711-727):
`'L{k}-L{k+1}' ↦ round((lines_misses+lines_evicts) * cache_cycles, 1)` when
`cache_cycles` is truthy, otherwise
`'L{k}-MEM' ↦ round((lines_misses+lines_evicts) *
elements_per_cacheline*element_size/mem_bw*clock, 1)`. -/
def levelCost (elements_per_cacheline : Int) (mem_bw clock : ℚ)
    (cache_level : Int) (cache_cycles : Option ℚ)
    (total_lines_misses total_lines_evicts : Int) : String × ℚ :=
  if truthy cache_cycles then
    ("L" ++ toString cache_level ++ "-L" ++ toString (cache_level + 1),
     round1 (((total_lines_misses + total_lines_evicts : Int) : ℚ) *
       cache_cycles.getD 0))
  else
    ("L" ++ toString cache_level ++ "-MEM",
     round1 (((total_lines_misses + total_lines_evicts : Int) : ℚ) *
       (elements_per_cacheline : ℚ) * (element_size : ℚ) / mem_bw * clock))

/-- Process the cache stack in order, threading the accumulated per-level
misses (`misses[cache_level]` persists across levels and seeds the next
level's candidates). -/
def runLevels (m : KernelModel) (ro wo : OffsetMap)
    (elements_per_cacheline : Int) (fuel : Nat) :
    List (Int × Int × String × Option ℚ) →
    List (Int × List ((String × String) × List Int)) →
    Except CalcErr (List LevelOut)
  | [], _ => .ok []
  | (cache_level, cache_size, _, cache_cycles) :: rest, missesAcc =>
    match levelLoop elements_per_cacheline cache_size
        (levelPairs m ro wo missesAcc cache_level) fuel 0 with
    | .error e => .error e
    | .ok (tr, trace_length) =>
      let lvl : LevelOut :=
        { cache_level := cache_level,
          cache_cycles := cache_cycles,
          pairs := tr.pairs,
          trace_length := trace_length,
          total_lines_misses :=
            (tr.pairs.map fun p =>
              lineCount elements_per_cacheline p.2.misses).sum,
          total_lines_evicts := totalLinesEvicts wo elements_per_cacheline }
      match runLevels m ro wo elements_per_cacheline fuel rest (missesAcc ++
        [(cache_level, tr.pairs.map fun p =>
          ((p.1.name, p.1.idxOrder), p.2.misses))]) with
      | .error e => .error e
      | .ok out => .ok (lvl :: out)

/-- `ECM.calculate_cache_access` (src/ecm.py lines 522-729): the full
cache-access simulation, returning the transition-label ↦ cycle-cost
mapping. -/
def calculate_cache_access (m : KernelModel) (machine : MachineModel)
    (fuel : Nat) : Except CalcErr (List (String × ℚ)) :=
  let elements_per_cacheline := pydiv machine.cl_size element_size
  match calcOffsets m elements_per_cacheline with
  | .error e => .error e
  | .ok (ro, wo) =>
    match runLevels m ro wo elements_per_cacheline fuel machine.cache_stack [] with
    | .error e => .error e
    | .ok lvls =>
      .ok (lvls.map fun lvl =>
        levelCost elements_per_cacheline machine.mem_bw machine.clock
          lvl.cache_level lvl.cache_cycles lvl.total_lines_misses
          lvl.total_lines_evicts)

/-! ## Kernel extraction (src/ecm.py lines 238-410)

The statement-level part of `Kernel.process()` that the claims exercise:
`_get_offsets`, `_p_assignment` and `_p_sources` over a small model of the
pycparser AST shapes those functions inspect.  Python exceptions abort the
traversal but leave the already-recorded table entries on the object, so the
embedding returns the mutated state together with an optional error. -/

/-- Subscript / right-hand-side expression shapes
(`c_ast.ID`, `c_ast.Constant`, `c_ast.BinaryOp`). -/
inductive CExpr
  | id (name : String)
  | const (v : Int)
  | binop (op : String) (l r : CExpr)
deriving Repr, DecidableEq

/-- A `c_ast.ArrayRef`: the `name` is either an identifier or another array
reference, plus one subscript. -/
inductive ARef
  | ofId (name : String) (subscript : CExpr)
  | ofRef (inner : ARef) (subscript : CExpr)
deriving Repr, DecidableEq

/-- Errors raised during extraction (assertion failures in
`Kernel._get_offsets`). -/
inductive KernelErr
  /-- `'binary operations in array subscript must by + or -'` or
  `'binary operation in array subscript may only have form
  "variable +- constant"'`. -/
  | unsupportedSubscript
  /-- `'varialbes used in array indices has to be a loop counter'`. -/
  | undeclaredIndex
deriving Repr, DecidableEq

/-- Classify one subscript (the body of `Kernel._get_offsets`,
src/ecm.py lines 256-274): a loop index ± constant, a bare loop index, or a
bare integer constant; everything else raises. -/
def subscriptDim (loop_names : List String) : CExpr → Except KernelErr AccessDim
  | .binop op l r =>
    if op = "+" ∨ op = "-" then
      match l, r with
      | .id n, .const v =>
        if n ∈ loop_names then
          .ok (.rel n (if op = "+" then v else -v))
        else .error .undeclaredIndex
      | _, _ => .error .unsupportedSubscript
    else .error .unsupportedSubscript
  | .id n =>
    if n ∈ loop_names then .ok (.rel n 0) else .error .undeclaredIndex
  | .const v => .ok (.abs v)

/-- `Kernel._get_offsets` without the final reversal: the current
dimension's descriptor followed by the descriptors of the outer dimensions
(the recursion into `aref.name`). -/
def getOffsetsAux (loop_names : List String) : ARef → Except KernelErr (List AccessDim)
  | .ofId _ sub =>
    match subscriptDim loop_names sub with
    | .error e => .error e
    | .ok d => .ok [d]
  | .ofRef inner sub =>
    match subscriptDim loop_names sub with
    | .error e => .error e
    | .ok d =>
      match getOffsetsAux loop_names inner with
      | .error e => .error e
      | .ok rest => .ok (d :: rest)

/-- `Kernel._get_offsets` (src/ecm.py lines 238-282): the per-dimension
offset descriptors of an array reference, outermost dimension first. -/
def _get_offsets (loop_names : List String) (aref : ARef) :
    Except KernelErr (List AccessDim) :=
  match getOffsetsAux loop_names aref with
  | .error e => .error e
  | .ok idxs => .ok idxs.reverse

/-- `Kernel._get_basename`. -/
def _get_basename : ARef → String
  | .ofId n _ => n
  | .ofRef inner _ => _get_basename inner

/-- The two access tables mutated by `_p_assignment` / `_p_sources`. -/
structure KState where
  _sources : List (String × List (List AccessDim))
  _destinations : List (String × List (List AccessDim))
deriving Repr, DecidableEq

/-- `d.setdefault(key, [])`. -/
def setdefaultA (m : List (String × List (List AccessDim))) (key : String) :
    List (String × List (List AccessDim)) :=
  if (m.lookup key).isSome then m else m ++ [(key, [])]

/-- `d[key].append(v)` (the entry exists after `setdefault`). -/
def appendA (m : List (String × List (List AccessDim))) (key : String)
    (v : List AccessDim) : List (String × List (List AccessDim)) :=
  m.map fun e => if e.1 = key then (e.1, e.2 ++ [v]) else e

/-- An assignment statement: lvalue (array reference or plain variable) and
rvalue expression tree containing array references, variables, constants
and binary operations. -/
inductive RExpr
  | aref (a : ARef)
  | id (name : String)
  | const (v : Int)
  | binop (op : String) (l r : RExpr)
deriving Repr, DecidableEq

/-- An lvalue (`c_ast.ArrayRef` or `c_ast.ID`). -/
inductive LValue
  | aref (a : ARef)
  | id (name : String)
deriving Repr, DecidableEq

/-- `Kernel._p_sources` (src/ecm.py lines 387-410): walk the rvalue and
record each array reference (with offsets) and each bare variable (as a
`('dir',)` entry) into `_sources`.  The `setdefault` runs before the
offsets of the reference are computed, so a raised assertion leaves the
entry (and everything recorded earlier) behind. -/
def _p_sources (loop_names : List String) :
    RExpr → KState → KState × Option KernelErr
  | .aref a, st =>
    let st := { st with _sources := setdefaultA st._sources (_get_basename a) }
    match _get_offsets loop_names a with
    | .error e => (st, some e)
    | .ok offs =>
      ({ st with _sources := appendA st._sources (_get_basename a) offs }, none)
  | .id n, st =>
    ({ st with
       _sources := appendA (setdefaultA st._sources n) n [AccessDim.dir] }, none)
  | .const _, st => (st, none)
  | .binop _ l r, st =>
    match _p_sources loop_names l st with
    | (st, some e) => (st, some e)
    | (st, none) => _p_sources loop_names r st

/-- `Kernel._p_assignment` (src/ecm.py lines 365-385): record the lvalue
into `_destinations` (the `setdefault` precedes the offset computation),
then walk the rvalue sources. -/
def _p_assignment (loop_names : List String) (lhs : LValue) (rhs : RExpr)
    (st : KState) : KState × Option KernelErr :=
  match lhs with
  | .aref a =>
    let st := { st with
      _destinations := setdefaultA st._destinations (_get_basename a) }
    match _get_offsets loop_names a with
    | .error e => (st, some e)
    | .ok offs =>
      let st := { st with
        _destinations := appendA st._destinations (_get_basename a) offs }
      _p_sources loop_names rhs st
  | .id n =>
    let st := { st with
      _destinations := appendA (setdefaultA st._destinations n) n [AccessDim.dir] }
    _p_sources loop_names rhs st

/-- The assignment-processing part of `Kernel.process()`: fold the loop
body's assignments, aborting at the first raised error but keeping the
state mutated so far (the Python exception propagates out of `process()`
while `self._sources` / `self._destinations` retain their entries). -/
def processBody (loop_names : List String) :
    List (LValue × RExpr) → KState → KState × Option KernelErr
  | [], st => (st, none)
  | (lhs, rhs) :: rest, st =>
    match _p_assignment loop_names lhs rhs st with
    | (st, some e) => (st, some e)
    | (st, none) => processBody loop_names rest st

/-- The affine subscript shapes accepted by `_get_offsets`: a declared loop
index alone, `loopIndex ± integerConstant`, or a bare integer constant. -/
def affineSubscript (loop_names : List String) : CExpr → Bool
  | .binop op l r =>
    (op = "+" ∨ op = "-" : Bool) &&
      (match l, r with
       | .id n, .const _ => n ∈ loop_names
       | _, _ => false)
  | .id n => n ∈ loop_names
  | .const _ => true

/-- All subscripts of an array reference. -/
def subscriptsOfA : ARef → List CExpr
  | .ofId _ sub => [sub]
  | .ofRef inner sub => sub :: subscriptsOfA inner

/-- All subscripts occurring in an rvalue expression. -/
def subscriptsOfR : RExpr → List CExpr
  | .aref a => subscriptsOfA a
  | .id _ => []
  | .const _ => []
  | .binop _ l r => subscriptsOfR l ++ subscriptsOfR r

/-- All subscripts occurring in an assignment. -/
def subscriptsOfAssign : LValue × RExpr → List CExpr
  | (.aref a, rhs) => subscriptsOfA a ++ subscriptsOfR rhs
  | (.id _, rhs) => subscriptsOfR rhs

/-! ## Reference comparison in the driver
(src/kerncraft/kerncraft.py lines 144-158; same tolerance logic inline in
src/ecm.py lines 1039-1050). -/

/-- The comparison loop: for every computed result whose key appears in the
reference mapping, a deviation of more than 10% of the reference value sets
the failure flag; a smaller nonzero deviation is only warned about.  Returns
(failure flag, warned keys). -/
def compareResults (results : List (String × ℚ))
    (reference : List (String × ℚ)) : Bool × List String :=
  results.foldl
    (fun acc kv =>
      match reference.lookup kv.1 with
      | none => acc
      | some correct_value =>
        let diff := |kv.2 - correct_value|
        if diff > correct_value * (1/10) then (true, acc.2)
        else if diff ≠ 0 then (acc.1, acc.2 ++ [kv.1])
        else acc)
    (false, [])

/-- `sys.exit(1)` happens iff the failure flag is set after the loop. -/
def driverExitsNonzero (results reference : List (String × ℚ)) : Bool :=
  (compareResults results reference).1

/-! ## Concrete inputs from the source, used as witnesses -/

/-- Whether an offset descriptor is a `('rel', ...)` tuple. -/
def AccessDim.isRel : AccessDim → Bool
  | .rel _ _ => true
  | _ => false

/-- The DAXPY kernel of the `kernels` dict (src/ecm.py lines 734-743),
`a[i] = a[i] + s * b[i]` with `N = 50`, as left by `Kernel.process()`. -/
def daxpyModel : KernelModel :=
  { _variables := [("a", "double", some [50]), ("b", "double", some [50]),
                   ("s", "double", none)],
    _sources := [("a", [[.rel "i" 0]]), ("b", [[.rel "i" 0]]), ("s", [[.dir]])],
    _destinations := [("a", [[.rel "i" 0]])],
    _loop_stack := ["i"] }

/-- The SNB machine of `__main__` (src/ecm.py lines 1015-1018):
`MachineModel('Xeon E5-2680', 'SNB', 2.7e9, 8, 64, 40e9, [(1, 32*1024,
'per core', 2), (2, 256*1024, 'per core', 2), (3, 20*1024*1024,
'per socket', None)])`. -/
def snbMachine : MachineModel :=
  { clock := 2700000000, cl_size := 64, mem_bw := 40000000000,
    cache_stack := [(1, 32768, "per core", some 2),
                    (2, 262144, "per core", some 2),
                    (3, 20971520, "per socket", none)] }

/-- The SNB machine with the L1 transfer cost set to `0` instead of absent
(exercises the truthiness branch of the cost computation). -/
def snbZeroMachine : MachineModel :=
  { clock := 2700000000, cl_size := 64, mem_bw := 40000000000,
    cache_stack := [(1, 32768, "per core", some 0),
                    (2, 262144, "per core", some 2),
                    (3, 20971520, "per socket", none)] }

/-- A processed kernel touching only scalar variables
(e.g. `double s; for(i=0; i<N; ++i) s = 2;`): no array access survives the
register filter, so no (variable, index-order) pair enters the trace. -/
def scalarOnlyModel : KernelModel :=
  { _variables := [("s", "double", none)],
    _sources := [],
    _destinations := [("s", [[.dir]])],
    _loop_stack := ["i"] }

/-- A processed kernel with a mixed absolute/relative access
(`a[i][i] = b[5][i]` over `double a[50][50], b[50][50]`): the `('abs', 5)`
descriptor passes the parser and the register filter. -/
def mixedAbsModel : KernelModel :=
  { _variables := [("a", "double", some [50, 50]), ("b", "double", some [50, 50])],
    _sources := [("b", [[.abs 5, .rel "i" 0]])],
    _destinations := [("a", [[.rel "i" 0, .rel "i" 0]])],
    _loop_stack := ["i"] }

/-- The per-level trace results of DAXPY on the SNB machine (the
intermediate state of `calculate_cache_access daxpyModel snbMachine 10`). -/
def daxpyLevels : Except CalcErr (List LevelOut) :=
  match calcOffsets daxpyModel 8 with
  | .ok (ro, wo) => runLevels daxpyModel ro wo 8 10 snbMachine.cache_stack []
  | .error e => .error e

/-- Per-pair (misses+hits, candidates) counts of every level of
`daxpyLevels`. -/
def daxpyPairCounts : List (List (Nat × Nat)) :=
  match daxpyLevels with
  | .ok lvls => lvls.map fun l => l.pairs.map fun p =>
      (p.2.misses.length + p.2.hits.length, p.1.candidates.length)
  | .error _ => []

/-- A minimal processed kernel (`double a[50]; for(i=0; i<N; ++i)
a[i] = a[i] + 1;`) used as a small witness input. -/
def miniModel : KernelModel :=
  { _variables := [("a", "double", some [50])],
    _sources := [("a", [[.rel "i" 0]])],
    _destinations := [("a", [[.rel "i" 0]])],
    _loop_stack := ["i"] }

/-- A tiny two-level machine for witnesses. -/
def miniMachine : MachineModel :=
  { clock := 2, cl_size := 64, mem_bw := 40,
    cache_stack := [(1, 64, "per core", some 1), (2, 128, "per socket", none)] }

/-- The compiled offset maps of `miniModel`. -/
def miniRoWo : OffsetMap × OffsetMap :=
  (calcOffsets miniModel 8).toOption.getD ([], [])

/-- The per-level outputs of `miniModel` on `miniMachine`. -/
def miniLvls : List LevelOut :=
  (runLevels miniModel miniRoWo.1 miniRoWo.2 8 4 miniMachine.cache_stack []).toOption.getD []

/-! # Theorems -/

/-! ## Claim C8: `blocking` is permutation invariant -/

lemma mem_blockingCollect (bs ib : Int) :
    ∀ (l : List Int) (acc : List Int) (x : Int),
      x ∈ blockingCollect l bs ib acc ↔
        x ∈ acc ∨ ∃ idx ∈ l, x = pydiv (idx - ib) bs := by
  intro l
  induction l with
  | nil => simp [blockingCollect]
  | cons a t ih =>
    intro acc x
    simp only [blockingCollect, List.foldl_cons] at *
    by_cases h : pydiv (a - ib) bs ∈ acc
    · rw [if_pos h, ih]
      constructor
      · rintro (hx | ⟨idx, hidx, hval⟩)
        · exact Or.inl hx
        · exact Or.inr ⟨idx, List.mem_cons_of_mem _ hidx, hval⟩
      · rintro (hx | ⟨idx, hidx, hval⟩)
        · exact Or.inl hx
        · rcases List.mem_cons.mp hidx with heq | hidx
          · refine Or.inl ?_
            rw [hval, heq]
            exact h
          · exact Or.inr ⟨idx, hidx, hval⟩
    · rw [if_neg h, ih]
      constructor
      · rintro (hx | ⟨idx, hidx, hval⟩)
        · rcases List.mem_append.mp hx with hx | hx
          · exact Or.inl hx
          · exact Or.inr ⟨a, List.mem_cons_self a t, List.mem_singleton.mp hx⟩
        · exact Or.inr ⟨idx, List.mem_cons_of_mem _ hidx, hval⟩
      · rintro (hx | ⟨idx, hidx, hval⟩)
        · exact Or.inl (List.mem_append.mpr (Or.inl hx))
        · rcases List.mem_cons.mp hidx with heq | hidx
          · exact Or.inl (List.mem_append.mpr (Or.inr (by
              rw [List.mem_singleton, hval, heq])))
          · exact Or.inr ⟨idx, hidx, hval⟩

lemma nodup_blockingCollect (bs ib : Int) :
    ∀ (l : List Int) (acc : List Int), acc.Nodup →
      (blockingCollect l bs ib acc).Nodup := by
  intro l
  induction l with
  | nil => intro acc h; simpa [blockingCollect] using h
  | cons a t ih =>
    intro acc hacc
    simp only [blockingCollect, List.foldl_cons]
    by_cases h : pydiv (a - ib) bs ∈ acc
    · rw [if_pos h]; exact ih acc hacc
    · rw [if_neg h]
      exact ih _ (by simpa [List.nodup_append] using ⟨hacc, h⟩)

/-- **C8**: For every list of integer offsets and every positive block size,
`blocking(indices, block_size)` returns the same output for every
permutation of the input list — the sorted list of distinct block indices
`floor((idx - initial_boundary)/block_size)` — so the set of covered cache
lines recovered by re-expanding its output is independent of the input
order. -/
theorem blocking_perm_invariant (l l' : List Int) (bs ib : Int)
    (_hbs : 0 < bs) (hperm : l.Perm l') :
    blocking l bs ib = blocking l' bs ib ∧
    (∀ x, x ∈ blocking l bs ib ↔ ∃ idx ∈ l, x = pydiv (idx - ib) bs) ∧
    (blocking l bs ib).Sorted (· ≤ ·) ∧
    (blocking l bs ib).Nodup := by
  have hmem : ∀ (L : List Int) (x : Int),
      x ∈ blockingCollect L bs ib [] ↔ ∃ idx ∈ L, x = pydiv (idx - ib) bs := by
    intro L x
    rw [mem_blockingCollect]
    simp
  have hnd : ∀ L : List Int, (blockingCollect L bs ib []).Nodup :=
    fun L => nodup_blockingCollect bs ib L [] List.nodup_nil
  have hcperm : (blockingCollect l bs ib []).Perm (blockingCollect l' bs ib []) := by
    rw [List.perm_ext_iff_of_nodup (hnd l) (hnd l')]
    intro x
    rw [hmem, hmem]
    constructor
    · rintro ⟨idx, hidx, rfl⟩; exact ⟨idx, hperm.mem_iff.mp hidx, rfl⟩
    · rintro ⟨idx, hidx, rfl⟩; exact ⟨idx, hperm.mem_iff.mpr hidx, rfl⟩
  refine ⟨?_, ?_, ?_, ?_⟩
  · exact List.eq_of_perm_of_sorted
      (((List.perm_insertionSort _ _).trans hcperm).trans
        (List.perm_insertionSort _ _).symm)
      (List.sorted_insertionSort _ _) (List.sorted_insertionSort _ _)
  · intro x
    rw [show blocking l bs ib =
        (blockingCollect l bs ib []).insertionSort (· ≤ ·) from rfl,
      (List.perm_insertionSort _ _).mem_iff, hmem]
  · exact List.sorted_insertionSort _ _
  · exact (List.perm_insertionSort _ _).nodup_iff.mpr (hnd l)

/-- Witness for C8 at a concrete permutation pair. -/
theorem blocking_perm_invariant_witness :
    blocking [3, 17, 1] 8 0 = blocking [1, 3, 17] 8 0 ∧
    (∀ x, x ∈ blocking [3, 17, 1] 8 0 ↔
      ∃ idx ∈ ([3, 17, 1] : List Int), x = pydiv (idx - 0) 8) ∧
    (blocking [3, 17, 1] 8 0).Sorted (· ≤ ·) ∧
    (blocking [3, 17, 1] 8 0).Nodup :=
  blocking_perm_invariant [3, 17, 1] [1, 3, 17] 8 0 (by decide) (by decide)

/-! ## Claim C7: the 10% reference-comparison tolerance -/

lemma compareResults_flag (reference : List (String × ℚ)) :
    ∀ (results : List (String × ℚ)) (acc : Bool × List String),
      (results.foldl
        (fun acc kv =>
          match reference.lookup kv.1 with
          | none => acc
          | some correct_value =>
            let diff := |kv.2 - correct_value|
            if diff > correct_value * (1/10) then (true, acc.2)
            else if diff ≠ 0 then (acc.1, acc.2 ++ [kv.1])
            else acc)
        acc).1 =
      (acc.1 || results.any fun kv =>
        match reference.lookup kv.1 with
        | none => false
        | some correct_value => decide (|kv.2 - correct_value| > correct_value * (1/10))) := by
  intro results
  induction results with
  | nil => intro acc; simp
  | cons kv t ih =>
    intro acc
    simp only [List.foldl_cons, List.any_cons]
    rw [ih]
    rcases hl : reference.lookup kv.1 with _ | cv <;> simp only [hl]
    · simp
    · by_cases hgt : |kv.2 - cv| > cv * (1/10)
      · rw [if_pos hgt, decide_eq_true hgt]
        simp
      · rw [decide_eq_false hgt, if_neg hgt]
        by_cases hz : |kv.2 - cv| ≠ 0
        · rw [if_pos hz]
          simp
        · rw [if_neg hz]
          simp

/-- **C7**: When a reference result mapping is supplied, the driver exits
with non-zero status if and only if, for some key present in both the
computed results and the reference, the absolute difference between
computed and reference value exceeds 10% of the reference value; a
non-zero difference within the 10% tolerance only emits a warning and does
not cause failure. -/
theorem driver_exit_iff_tolerance_exceeded
    (results reference : List (String × ℚ)) :
    driverExitsNonzero results reference = true ↔
      ∃ key value correct_value,
        (key, value) ∈ results ∧
        reference.lookup key = some correct_value ∧
        |value - correct_value| > correct_value * (1/10) := by
  show (compareResults results reference).1 = true ↔ _
  rw [show (compareResults results reference).1 =
      (results.foldl
        (fun acc kv =>
          match reference.lookup kv.1 with
          | none => acc
          | some correct_value =>
            let diff := |kv.2 - correct_value|
            if diff > correct_value * (1/10) then (true, acc.2)
            else if diff ≠ 0 then (acc.1, acc.2 ++ [kv.1])
            else acc)
        (false, [])).1 from rfl]
  rw [compareResults_flag]
  simp only [Bool.false_or, List.any_eq_true]
  constructor
  · rintro ⟨⟨key, value⟩, hmem, hp⟩
    rcases hl : reference.lookup key with _ | cv
    · simp [hl] at hp
    · simp only [hl] at hp
      exact ⟨key, value, cv, hmem, hl, of_decide_eq_true hp⟩
  · rintro ⟨key, value, cv, hmem, hl, hgt⟩
    refine ⟨(key, value), hmem, ?_⟩
    simp only [hl]
    exact decide_eq_true hgt

/-! ## Claim C10: a present-but-zero transfer cost is treated as no cost -/

lemma runLevels_results_cycles_congr (m : KernelModel) (ro wo : OffsetMap)
    (epc : Int) (fuel : Nat) (mem_bw clock : ℚ) (k sz : Int) (ty : String)
    (c₁ c₂ : Option ℚ)
    (hc : ∀ lm le : Int, levelCost epc mem_bw clock k c₁ lm le =
      levelCost epc mem_bw clock k c₂ lm le) :
    ∀ (pre post : List (Int × Int × String × Option ℚ))
      (acc : List (Int × List ((String × String) × List Int))),
      (runLevels m ro wo epc fuel (pre ++ (k, sz, ty, c₁) :: post) acc).map
        (List.map fun lvl => levelCost epc mem_bw clock lvl.cache_level
          lvl.cache_cycles lvl.total_lines_misses lvl.total_lines_evicts) =
      (runLevels m ro wo epc fuel (pre ++ (k, sz, ty, c₂) :: post) acc).map
        (List.map fun lvl => levelCost epc mem_bw clock lvl.cache_level
          lvl.cache_cycles lvl.total_lines_misses lvl.total_lines_evicts) := by
  intro pre
  induction pre with
  | nil =>
    intro post acc
    simp only [List.nil_append, runLevels]
    rcases hloop : levelLoop epc sz (levelPairs m ro wo acc k) fuel 0 with e | ⟨tr, tl⟩
    · rfl
    · dsimp only
      rcases hrest : runLevels m ro wo epc fuel post
          (acc ++ [(k, tr.pairs.map fun p => ((p.1.name, p.1.idxOrder), p.2.misses))]) with
        e | out
      · rfl
      · simp only [Except.map, List.map_cons]
        rw [hc]
  | cons hd t ih =>
    intro post acc
    obtain ⟨khd, szhd, tyhd, chd⟩ := hd
    simp only [List.cons_append, runLevels]
    rcases hloop : levelLoop epc szhd (levelPairs m ro wo acc khd) fuel 0 with e | ⟨tr, tl⟩
    · rfl
    · dsimp only
      have := ih post
        (acc ++ [(khd, tr.pairs.map fun p => ((p.1.name, p.1.idxOrder), p.2.misses))])
      rcases h₁ : runLevels m ro wo epc fuel (t ++ (k, sz, ty, c₁) :: post)
          (acc ++ [(khd, tr.pairs.map fun p => ((p.1.name, p.1.idxOrder), p.2.misses))]) with
        e | out₁ <;>
        rcases h₂ : runLevels m ro wo epc fuel (t ++ (k, sz, ty, c₂) :: post)
          (acc ++ [(khd, tr.pairs.map fun p => ((p.1.name, p.1.idxOrder), p.2.misses))]) with
        e' | out₂ <;> rw [h₁, h₂] at this <;>
        simp only [Except.map, List.map_cons] at this ⊢ <;> simp_all

/-- **C10**: A cache level whose cycles-per-cacheline-transfer value is
present but equal to 0 is treated by `calculate_cache_access` exactly like
a level with no transfer cost: its result is labeled `'L{k}-MEM'` and
computed from memory bandwidth and clock rate, because the branch tests the
cost value's truthiness rather than its presence. -/
theorem zero_cost_level_is_memory_bound (epc : Int) (mem_bw clock : ℚ)
    (k lm le : Int) :
    levelCost epc mem_bw clock k (some 0) lm le =
      levelCost epc mem_bw clock k none lm le ∧
    (levelCost epc mem_bw clock k (some 0) lm le).1 =
      "L" ++ toString k ++ "-MEM" ∧
    (levelCost epc mem_bw clock k (some 0) lm le).2 =
      round1 (((lm + le : Int) : ℚ) * (epc : ℚ) * (element_size : ℚ) /
        mem_bw * clock) ∧
    ∀ (m : KernelModel) (machine : MachineModel)
      (pre post : List (Int × Int × String × Option ℚ)) (sz : Int)
      (ty : String) (fuel : Nat),
      calculate_cache_access m
        { machine with cache_stack := pre ++ (k, sz, ty, some 0) :: post } fuel =
      calculate_cache_access m
        { machine with cache_stack := pre ++ (k, sz, ty, none) :: post } fuel := by
  have hz : ∀ (epc' : Int) (mbw clk : ℚ) (k' lm' le' : Int),
      levelCost epc' mbw clk k' (some 0) lm' le' =
        levelCost epc' mbw clk k' none lm' le' := by
    intro epc' mbw clk k' lm' le'
    simp [levelCost, truthy]
  refine ⟨hz epc mem_bw clock k lm le, by simp [levelCost, truthy],
    by simp [levelCost, truthy], ?_⟩
  intro m machine pre post sz ty fuel
  show calculate_cache_access _ _ _ = calculate_cache_access _ _ _
  simp only [calculate_cache_access]
  rcases hoff : calcOffsets m (pydiv machine.cl_size element_size) with e | ⟨ro, wo⟩
  · rfl
  · dsimp only
    have hcongr := runLevels_results_cycles_congr m ro wo
      (pydiv machine.cl_size element_size) fuel machine.mem_bw machine.clock
      k sz ty (some 0) none
      (fun lm' le' => hz _ _ _ _ lm' le') pre post []
    rcases h₁ : runLevels m ro wo (pydiv machine.cl_size element_size) fuel
        (pre ++ (k, sz, ty, some 0) :: post) [] with e | out₁ <;>
      rcases h₂ : runLevels m ro wo (pydiv machine.cl_size element_size) fuel
        (pre ++ (k, sz, ty, none) :: post) [] with e' | out₂ <;>
      rw [h₁, h₂] at hcongr <;>
      simp only [Except.map] at hcongr <;> simp_all

/-! ## Claim C2: the trace-length update with no distinct ranges -/

lemma calcOffsets_go_scalars (m : KernelModel) (epc : Int) :
    ∀ (vars : List (String × String × Option (List Int)))
      (ro wo : OffsetMap), (∀ v ∈ vars, v.2.2 = none) →
      calcOffsets.go m epc vars ro wo = .ok (ro, wo) := by
  intro vars
  induction vars with
  | nil => intro ro wo _; rfl
  | cons v rest ih =>
    intro ro wo h
    obtain ⟨name, ty, dims⟩ := v
    have hd : dims = none := h _ (List.mem_cons_self _ _)
    subst hd
    exact ih ro wo fun v hv => h v (List.mem_cons_of_mem _ hv)

lemma levelPairs_of_empty_offsets (m : KernelModel)
    (acc : List (Int × List ((String × String) × List Int))) (k : Int) :
    levelPairs m [] [] acc k = [] := by
  unfold levelPairs
  rw [List.flatMap_eq_nil_iff]
  intro v _
  simp [lookupD, dedupKeys]

lemma levelLoop_no_pairs (epc cs : Int) (fuel : Nat) (tl : Int) :
    levelLoop epc cs [] (fuel + 1) tl = .error .divByZero := by
  simp [levelLoop, traceAllPairs]

/-- **C2** (the guard the spec requires is absent, so the code faults):
for every kernel whose variables are all scalars — no (variable,
index-order) pair enters the backward trace, hence the distinct-range count
`trace_count` is 0 — `calculate_cache_access` raises `ZeroDivisionError` at
the trace-length update (`((cache_size/2 - cache_used_size)/trace_count)`)
instead of short-circuiting to "no further growth". -/
theorem tracelength_update_division_by_zero (m : KernelModel)
    (machine : MachineModel) (fuel : Nat)
    (hscal : ∀ v ∈ m._variables, v.2.2 = none)
    (hstack : machine.cache_stack ≠ []) (hfuel : 0 < fuel) :
    calculate_cache_access m machine fuel = .error .divByZero := by
  obtain ⟨⟨k, sz, ty, cyc⟩, rest, hst⟩ :
      ∃ hd rest, machine.cache_stack = hd :: rest := by
    rcases hcs : machine.cache_stack with _ | ⟨hd, rest⟩
    · exact absurd hcs hstack
    · exact ⟨hd, rest, rfl⟩
  obtain ⟨n, rfl⟩ : ∃ n, fuel = n + 1 := ⟨fuel - 1, by omega⟩
  simp only [calculate_cache_access]
  rw [show calcOffsets m (pydiv machine.cl_size element_size) =
      .ok ([], []) from calcOffsets_go_scalars m _ m._variables [] [] hscal]
  dsimp only
  rw [hst]
  simp only [runLevels]
  rw [levelPairs_of_empty_offsets, levelLoop_no_pairs]

/-- Witness for C2 at the concrete scalar-only kernel on the SNB machine. -/
theorem tracelength_update_division_by_zero_witness :
    (∀ v ∈ scalarOnlyModel._variables, v.2.2 = none) ∧
    snbMachine.cache_stack ≠ [] ∧ (0 : Nat) < 1 ∧
    calculate_cache_access scalarOnlyModel snbMachine 1 = .error .divByZero :=
  ⟨by decide, by simp [snbMachine], by decide,
   tracelength_update_division_by_zero scalarOnlyModel snbMachine 1
     (by decide) (by simp [snbMachine]) (by decide)⟩

/-! ## Claim C1: misses + hits versus candidates in the backward trace -/

lemma traceStep_misses (epc tl it : Int) (st : PairState) (o : Int) :
    (traceStep epc tl it st o).misses =
      if st.cache.containsB o then st.misses.erase o else st.misses := by
  by_cases h : st.cache.containsB o <;> simp [traceStep, h]

lemma traceStep_hits (epc tl it : Int) (st : PairState) (o : Int) :
    (traceStep epc tl it st o).hits =
      if st.cache.containsB o then
        (if o ∈ st.hits then st.hits else st.hits ++ [o])
      else st.hits := by
  by_cases h : st.cache.containsB o <;> simp [traceStep, h]

lemma traceFold_length_le (epc tl it : Int) :
    ∀ (l : List Int) (st : PairState),
      (∀ x, l.count x ≤ st.misses.count x) →
      (l.foldl (traceStep epc tl it) st).misses.length +
          (l.foldl (traceStep epc tl it) st).hits.length ≤
        st.misses.length + st.hits.length := by
  intro l
  induction l with
  | nil => intro st _; simp
  | cons o rest ih =>
    intro st h
    rw [List.foldl_cons]
    have homem : o ∈ st.misses :=
      List.count_pos_iff.mp (lt_of_lt_of_le (by simp [List.count_cons]) (h o))
    have hcount : ∀ x, rest.count x ≤ (traceStep epc tl it st o).misses.count x := by
      intro x
      rw [traceStep_misses]
      by_cases hc : st.cache.containsB o
      · rw [if_pos hc]
        by_cases hx : x = o
        · subst hx
          rw [List.count_erase_self]
          have := h x
          simp only [List.count_cons_self] at this
          omega
        · rw [List.count_erase_of_ne hx]
          have := h x
          rw [List.count_cons_of_ne hx] at this
          exact this
      · rw [if_neg hc]
        have := h x
        rw [List.count_cons] at this
        omega
    have hlen : (traceStep epc tl it st o).misses.length +
        (traceStep epc tl it st o).hits.length ≤
        st.misses.length + st.hits.length := by
      rw [traceStep_misses, traceStep_hits]
      by_cases hc : st.cache.containsB o
      · rw [if_pos hc, if_pos hc]
        rw [List.length_erase_of_mem homem]
        have hpos : 0 < st.misses.length := List.length_pos.mpr
          (List.ne_nil_of_mem homem)
        by_cases hh : o ∈ st.hits
        · rw [if_pos hh]; omega
        · rw [if_neg hh, List.length_append]
          simp only [List.length_cons, List.length_nil]
          omega
      · rw [if_neg hc, if_neg hc]
    exact le_trans (ih _ hcount) hlen

lemma traceFold_length_eq (epc tl it : Int) :
    ∀ (l : List Int) (st : PairState), l.Nodup →
      (∀ x, l.count x ≤ st.misses.count x) →
      (∀ x ∈ st.hits, x ∉ l) →
      (l.foldl (traceStep epc tl it) st).misses.length +
          (l.foldl (traceStep epc tl it) st).hits.length =
        st.misses.length + st.hits.length := by
  intro l
  induction l with
  | nil => intro st _ _ _; simp
  | cons o rest ih =>
    intro st hnd h hdisj
    rw [List.foldl_cons]
    have homem : o ∈ st.misses :=
      List.count_pos_iff.mp (lt_of_lt_of_le (by simp [List.count_cons]) (h o))
    have hcount : ∀ x, rest.count x ≤ (traceStep epc tl it st o).misses.count x := by
      intro x
      rw [traceStep_misses]
      by_cases hc : st.cache.containsB o
      · rw [if_pos hc]
        by_cases hx : x = o
        · subst hx
          rw [List.count_erase_self]
          have := h x
          simp only [List.count_cons_self] at this
          omega
        · rw [List.count_erase_of_ne hx]
          have := h x
          rw [List.count_cons_of_ne hx] at this
          exact this
      · rw [if_neg hc]
        have := h x
        rw [List.count_cons] at this
        omega
    have hdisj' : ∀ x ∈ (traceStep epc tl it st o).hits, x ∉ rest := by
      intro x hx
      rw [traceStep_hits] at hx
      by_cases hc : st.cache.containsB o
      · rw [if_pos hc] at hx
        by_cases hh : o ∈ st.hits
        · rw [if_pos hh] at hx
          exact fun hmem => hdisj x hx (List.mem_cons_of_mem _ hmem)
        · rw [if_neg hh] at hx
          rcases List.mem_append.mp hx with hx | hx
          · exact fun hmem => hdisj x hx (List.mem_cons_of_mem _ hmem)
          · rw [List.mem_singleton.mp hx]
            exact (List.nodup_cons.mp hnd).1
      · rw [if_neg hc] at hx
        exact fun hmem => hdisj x hx (List.mem_cons_of_mem _ hmem)
    have hlen : (traceStep epc tl it st o).misses.length +
        (traceStep epc tl it st o).hits.length =
        st.misses.length + st.hits.length := by
      rw [traceStep_misses, traceStep_hits]
      by_cases hc : st.cache.containsB o
      · rw [if_pos hc, if_pos hc]
        have hno : o ∉ st.hits := fun hh =>
          (hdisj o hh) (List.mem_cons_self _ _)
        rw [if_neg hno, List.length_erase_of_mem homem, List.length_append]
        have hpos : 0 < st.misses.length := List.length_pos.mpr
          (List.ne_nil_of_mem homem)
        simp only [List.length_cons, List.length_nil]
        omega
      · rw [if_neg hc, if_neg hc]
    rw [ih _ (List.nodup_cons.mp hnd).2 hcount hdisj', hlen]

/-- **C1** (amended): after the backward trace of a pair, the misses
remaining plus the hit-classified candidate occurrences account for every
candidate that entered the level; since the hits list records each hit
offset only once, `|misses| + |hits|` is at most the number of candidates,
with equality whenever the pair's candidate list has no duplicate offsets
(every hit having been covered by the interval set at the moment it was
classified). -/
theorem miss_hit_partition (epc tl : Int) (pd : PairDef) :
    (tracePair epc tl pd).misses.length + (tracePair epc tl pd).hits.length ≤
      pd.candidates.length ∧
    (pd.candidates.Nodup →
      (tracePair epc tl pd).misses.length + (tracePair epc tl pd).hits.length =
        pd.candidates.length) := by
  constructor
  · have := traceFold_length_le epc tl pd.iterOffset pd.candidates
      { misses := pd.candidates, hits := [], cache := Intervals.empty }
      (fun x => le_refl _)
    simpa [tracePair] using this
  · intro hnd
    have := traceFold_length_eq epc tl pd.iterOffset pd.candidates
      { misses := pd.candidates, hits := [], cache := Intervals.empty }
      hnd (fun x => le_refl _) (by simp)
    simpa [tracePair] using this

/-- Counterexample to C1 as stated: running the full simulation on the
DAXPY kernel with the SNB machine, the level-1 pair `("a", "i")` enters
with 16 candidate offsets (reads and writes overlap), but ends with 1 miss
and 8 deduplicated hits: 1 + 8 ≠ 16. -/
theorem miss_hit_partition_counterexample :
    daxpyPairCounts = [[(9, 16), (8, 8)], [(1, 1), (1, 1)], [(1, 1), (1, 1)]] ∧
    ¬ ∀ lvl ∈ daxpyPairCounts, ∀ c ∈ lvl, c.1 = c.2 :=
  ⟨by decide, by decide⟩

/-- Witness for C1 (amended) at the DAXPY level-1 pair `("b", "i")`. -/
theorem miss_hit_partition_witness :
    ((tracePair 8 1008 ⟨"b", "i", 1, [7, 6, 5, 4, 3, 2, 1, 0]⟩).misses.length +
        (tracePair 8 1008 ⟨"b", "i", 1, [7, 6, 5, 4, 3, 2, 1, 0]⟩).hits.length ≤
      ([7, 6, 5, 4, 3, 2, 1, 0] : List Int).length) ∧
    (tracePair 8 1008 ⟨"b", "i", 1, [7, 6, 5, 4, 3, 2, 1, 0]⟩).misses.length +
        (tracePair 8 1008 ⟨"b", "i", 1, [7, 6, 5, 4, 3, 2, 1, 0]⟩).hits.length =
      ([7, 6, 5, 4, 3, 2, 1, 0] : List Int).length :=
  ⟨(miss_hit_partition 8 1008 ⟨"b", "i", 1, [7, 6, 5, 4, 3, 2, 1, 0]⟩).1,
   (miss_hit_partition 8 1008 ⟨"b", "i", 1, [7, 6, 5, 4, 3, 2, 1, 0]⟩).2
     (by decide)⟩

/-! ## Claim C9: absolute subscripts reaching the simulator raise -/

lemma relative_offset_go_ok (base_dims : List Int) :
    ∀ (dims : List AccessDim) (dim : Nat) (acc : Int) (v : Int),
      _calculate_relative_offset.go base_dims dim dims acc = .ok v →
      ∀ d ∈ dims, d.isRel = true := by
  intro dims
  induction dims with
  | nil => intro _ _ _ _ d hd; exact absurd hd (List.not_mem_nil d)
  | cons d rest ih =>
    intro dim acc v hok x hx
    cases d with
    | rel idx off =>
      rcases List.mem_cons.mp hx with rfl | hx
      · rfl
      · exact ih (dim + 1) _ v hok x hx
    | abs w => exact absurd hok (by simp [_calculate_relative_offset.go])
    | dir => exact absurd hok (by simp [_calculate_relative_offset.go])

lemma relative_offset_ok (base_dims : List Int) (acs : List AccessDim)
    (v : Int) (hok : _calculate_relative_offset base_dims acs = .ok v) :
    ∀ d ∈ acs, d.isRel = true :=
  relative_offset_go_ok base_dims acs 0 0 v hok

lemma compileBase_ok (base_dims : List Int) :
    ∀ (accesses : List (List AccessDim)) (m m' : List (String × List Int)),
      compileBase base_dims accesses m = .ok m' →
      ∀ r ∈ accesses, ∃ v, _calculate_relative_offset base_dims r = .ok v := by
  intro accesses
  induction accesses with
  | nil => intro _ _ _ r hr; exact absurd hr (List.not_mem_nil r)
  | cons r rest ih =>
    intro m m' hok x hx
    rw [compileBase] at hok
    rcases hrel : _calculate_relative_offset base_dims r with e | v <;>
      rw [hrel] at hok
    · exact absurd hok (by simp)
    · rcases List.mem_cons.mp hx with rfl | hx
      · exact ⟨v, hrel⟩
      · exact ih _ m' hok x hx

lemma compileVar_ok (base_dims : List Int) (inner : String) (epc : Int)
    (reads writes : List (List AccessDim)) (rw : _)
    (hok : compileVar base_dims inner epc reads writes = .ok rw) :
    (∃ ro, compileBase base_dims (reads.filter (usesInnermost inner)) [] = .ok ro) ∧
    (∃ wo, compileBase base_dims (writes.filter (usesInnermost inner)) [] = .ok wo) := by
  rw [compileVar] at hok
  rcases h₁ : compileBase base_dims (reads.filter (usesInnermost inner)) [] with
    e | ro <;> rw [h₁] at hok
  · exact absurd hok (by simp)
  · refine ⟨⟨ro, rfl⟩, ?_⟩
    rcases h₂ : compileBase base_dims (writes.filter (usesInnermost inner)) [] with
      e | wo <;> rw [h₂] at hok
    · exact absurd hok (by simp)
    · exact ⟨wo, rfl⟩

lemma calcOffsets_go_ok (m : KernelModel) (epc : Int) :
    ∀ (vars : List (String × String × Option (List Int))) (ro wo : OffsetMap)
      (out : OffsetMap × OffsetMap),
      calcOffsets.go m epc vars ro wo = .ok out →
      ∀ (name ty : String) (dims : List Int), (name, ty, some dims) ∈ vars →
        ∃ rw, compileVar dims (innermostIndex m) epc
          (lookupD m._sources name []) (lookupD m._destinations name []) = .ok rw := by
  intro vars
  induction vars with
  | nil => intro _ _ _ _ name ty dims h; exact absurd h (List.not_mem_nil _)
  | cons v rest ih =>
    intro ro wo out hok name ty dims hmem
    obtain ⟨n, t, odims⟩ := v
    cases odims with
    | none =>
      rw [calcOffsets.go] at hok
      rcases List.mem_cons.mp hmem with heq | hmem
      · exact absurd (congrArg (fun p => p.2.2) heq) (by simp)
      · exact ih ro wo out hok name ty dims hmem
    | some bd =>
      rw [calcOffsets.go] at hok
      rcases hcv : compileVar bd (innermostIndex m) epc
          (lookupD m._sources n []) (lookupD m._destinations n []) with e | rw₀ <;>
        rw [hcv] at hok
      · exact absurd hok (by simp)
      · rcases List.mem_cons.mp hmem with heq | hmem
        · obtain ⟨h₁, h₂, h₃⟩ : name = n ∧ ty = t ∧ dims = bd := by
            injection heq with ha hb
            injection hb with hb hc
            exact ⟨ha, hb, by injection hc⟩
          subst h₁; subst h₃
          exact ⟨rw₀, hcv⟩
        · exact ih _ _ out hok name ty dims hmem

/-- **C9**: for every processed kernel model containing, on an array
variable, an access that combines a non-`rel` offset descriptor (e.g. a
bare-constant `('abs', v)` subscript) with the innermost loop index in
another dimension, `calculate_cache_access` raises an error (the three-way
tuple unpacking / `'rel'`-only assertion in `_calculate_relative_offset`
fails on the short tuple) instead of returning a result: absolute
subscripts that pass the parser are never silently modeled. -/
theorem absolute_subscript_access_errors (m : KernelModel)
    (machine : MachineModel) (fuel : Nat)
    (name ty : String) (dims : List Int) (acs : List AccessDim)
    (hvar : (name, ty, some dims) ∈ m._variables)
    (hacc : acs ∈ lookupD m._sources name [] ∨
      acs ∈ lookupD m._destinations name [])
    (hfilter : usesInnermost (innermostIndex m) acs = true)
    (habs : ∃ d ∈ acs, d.isRel = false) :
    ∃ e, calculate_cache_access m machine fuel = .error e := by
  rcases hres : calculate_cache_access m machine fuel with e | res
  · exact ⟨e, rfl⟩
  · exfalso
    rw [calculate_cache_access] at hres
    rcases hoff : calcOffsets m (pydiv machine.cl_size element_size) with
      e | ⟨ro, wo⟩ <;> rw [hoff] at hres
    · exact absurd hres (by simp)
    · obtain ⟨rw₀, hcv⟩ := calcOffsets_go_ok m _ m._variables [] [] (ro, wo)
        hoff name ty dims hvar
      obtain ⟨⟨ro₁, hro⟩, ⟨wo₁, hwo⟩⟩ := compileVar_ok _ _ _ _ _ rw₀ hcv
      obtain ⟨d, hd, hrel⟩ := habs
      rcases hacc with hacc | hacc
      · obtain ⟨v, hv⟩ := compileBase_ok dims _ [] ro₁ hro acs
          (List.mem_filter.mpr ⟨hacc, hfilter⟩)
        rw [relative_offset_ok dims acs v hv d hd] at hrel
        exact absurd hrel (by simp)
      · obtain ⟨v, hv⟩ := compileBase_ok dims _ [] wo₁ hwo acs
          (List.mem_filter.mpr ⟨hacc, hfilter⟩)
        rw [relative_offset_ok dims acs v hv d hd] at hrel
        exact absurd hrel (by simp)

/-- Witness for C9 at the concrete mixed `a[i][i] = b[5][i]` kernel. -/
theorem absolute_subscript_access_errors_witness :
    ("b", "double", some [50, 50]) ∈ mixedAbsModel._variables ∧
    ([AccessDim.abs 5, AccessDim.rel "i" 0] ∈
      lookupD mixedAbsModel._sources "b" []) ∧
    usesInnermost (innermostIndex mixedAbsModel)
      [AccessDim.abs 5, AccessDim.rel "i" 0] = true ∧
    (∃ d ∈ [AccessDim.abs 5, AccessDim.rel "i" 0], d.isRel = false) ∧
    ∃ e, calculate_cache_access mixedAbsModel snbMachine 10 = .error e :=
  ⟨by decide, by decide, by decide, by decide,
   absolute_subscript_access_errors mixedAbsModel snbMachine 10 "b" "double"
     [50, 50] [AccessDim.abs 5, AccessDim.rel "i" 0] (by decide)
     (Or.inl (by decide)) (by decide) (by decide)⟩

/-! ## Claim C6: non-affine subscripts fail extraction -/

lemma subscriptDim_ok_affine (loop_names : List String) (sub : CExpr)
    (d : AccessDim) (h : subscriptDim loop_names sub = .ok d) :
    affineSubscript loop_names sub = true := by
  cases sub with
  | binop op l r =>
    simp only [subscriptDim] at h
    split at h
    · split at h
      · split at h
        · rename_i n v hn
          have hop : op = "+" ∨ op = "-" := by assumption
          simp [affineSubscript, hop, hn]
        · simp at h
      · simp at h
    · simp at h
  | id n =>
    simp only [subscriptDim] at h
    split at h
    · rename_i hn
      simp [affineSubscript, hn]
    · simp at h
  | const v => rfl

lemma getOffsetsAux_ok_affine (loop_names : List String) :
    ∀ (a : ARef) (l : List AccessDim),
      getOffsetsAux loop_names a = .ok l →
      ∀ sub ∈ subscriptsOfA a, affineSubscript loop_names sub = true := by
  intro a
  induction a with
  | ofId nm sub =>
    intro l h s hs
    rw [getOffsetsAux] at h
    rcases hd : subscriptDim loop_names sub with e | d <;> rw [hd] at h
    · exact absurd h (by simp)
    · rw [show s = sub from by simpa [subscriptsOfA] using hs]
      exact subscriptDim_ok_affine loop_names sub d hd
  | ofRef inner sub ih =>
    intro l h s hs
    rw [getOffsetsAux] at h
    rcases hd : subscriptDim loop_names sub with e | d <;> rw [hd] at h
    · exact absurd h (by simp)
    · rcases hrest : getOffsetsAux loop_names inner with e | rest <;>
        rw [hrest] at h
      · exact absurd h (by simp)
      · rcases List.mem_cons.mp (by simpa [subscriptsOfA] using hs) with rfl | hs
        · exact subscriptDim_ok_affine loop_names s d hd
        · exact ih rest hrest s hs

lemma get_offsets_ok_affine (loop_names : List String) (a : ARef)
    (l : List AccessDim) (h : _get_offsets loop_names a = .ok l) :
    ∀ sub ∈ subscriptsOfA a, affineSubscript loop_names sub = true := by
  rw [_get_offsets] at h
  rcases haux : getOffsetsAux loop_names a with e | idxs <;> rw [haux] at h
  · exact absurd h (by simp)
  · exact getOffsetsAux_ok_affine loop_names a idxs haux

lemma pSources_none_affine (loop_names : List String) :
    ∀ (e : RExpr) (st st' : KState),
      _p_sources loop_names e st = (st', none) →
      ∀ sub ∈ subscriptsOfR e, affineSubscript loop_names sub = true := by
  intro e
  induction e with
  | aref a =>
    intro st st' h s hs
    rw [_p_sources] at h
    rcases hoff : _get_offsets loop_names a with e | offs <;> rw [hoff] at h
    · exact absurd (congrArg Prod.snd h) (by simp)
    · exact get_offsets_ok_affine loop_names a offs hoff s hs
  | id n => intro _ _ _ s hs; exact absurd hs (List.not_mem_nil s)
  | const v => intro _ _ _ s hs; exact absurd hs (List.not_mem_nil s)
  | binop op l r ihl ihr =>
    intro st st' h s hs
    rw [_p_sources] at h
    rcases hfst : _p_sources loop_names l st with ⟨st₁, e₁⟩
    rw [hfst] at h
    cases e₁ with
    | some e₁ => exact absurd (congrArg Prod.snd h) (by simp)
    | none =>
      rcases List.mem_append.mp (by simpa [subscriptsOfR] using hs) with hs | hs
      · exact ihl st st₁ hfst s hs
      · exact ihr st₁ st' h s hs

lemma pAssignment_none_affine (loop_names : List String)
    (lhs : LValue) (rhs : RExpr) (st st' : KState)
    (h : _p_assignment loop_names lhs rhs st = (st', none)) :
    ∀ sub ∈ subscriptsOfAssign (lhs, rhs),
      affineSubscript loop_names sub = true := by
  intro s hs
  cases lhs with
  | aref a =>
    rw [_p_assignment] at h
    rcases hoff : _get_offsets loop_names a with e | offs <;> rw [hoff] at h
    · exact absurd (congrArg Prod.snd h) (by simp)
    · rcases List.mem_append.mp (by simpa [subscriptsOfAssign] using hs) with
        hs | hs
      · exact get_offsets_ok_affine loop_names a offs hoff s hs
      · exact pSources_none_affine loop_names rhs _ st' h s hs
  | id n =>
    rw [_p_assignment] at h
    exact pSources_none_affine loop_names rhs _ st' h s
      (by simpa [subscriptsOfAssign] using hs)

lemma processBody_none_affine (loop_names : List String) :
    ∀ (body : List (LValue × RExpr)) (st st' : KState),
      processBody loop_names body st = (st', none) →
      ∀ a ∈ body, ∀ sub ∈ subscriptsOfAssign a,
        affineSubscript loop_names sub = true := by
  intro body
  induction body with
  | nil => intro _ _ _ a ha; exact absurd ha (List.not_mem_nil a)
  | cons hd rest ih =>
    intro st st' h a ha
    obtain ⟨lhs, rhs⟩ := hd
    rw [processBody] at h
    rcases hfst : _p_assignment loop_names lhs rhs st with ⟨st₁, e₁⟩
    rw [hfst] at h
    cases e₁ with
    | some e₁ => exact absurd (congrArg Prod.snd h) (by simp)
    | none =>
      rcases List.mem_cons.mp ha with rfl | ha
      · exact pAssignment_none_affine loop_names lhs rhs st st₁ hfst
      · exact ih st₁ st' h a ha

/-- **C6** (amended): a kernel body containing an array subscript that is
not a loop index alone, loop index ± constant, or a bare integer constant
fails extraction with a raised error (the unsupported-subscript assertion
when the offending reference is the first to fail); however, table entries
recorded before the offending reference — such as the destination entry of
the assignment's left-hand side — remain in the kernel object's
sources/destinations tables (the raised error only prevents any later
simulation from running). -/
theorem nonaffine_subscript_fails (loop_names : List String)
    (body : List (LValue × RExpr)) (st : KState)
    (h : ∃ a ∈ body, ∃ sub ∈ subscriptsOfAssign a,
      affineSubscript loop_names sub = false) :
    (processBody loop_names body st).2 ≠ none := by
  intro hnone
  obtain ⟨a, ha, sub, hsub, hfalse⟩ := h
  have heq : processBody loop_names body st =
      ((processBody loop_names body st).1, none) := by
    rw [← hnone]
  have := processBody_none_affine loop_names body st
    (processBody loop_names body st).1 heq a ha sub hsub
  rw [this] at hfalse
  exact absurd hfalse (by simp)

/-- Counterexample to C6 as stated: processing `a[i] = b[i*i];` raises the
unsupported-subscript assertion, but the destination entry for `a`
(recorded before the right-hand side is walked) and the `setdefault`-created
source entry for `b` survive in the tables — the partial access-pattern
result is not discarded. -/
theorem nonaffine_subscript_fails_counterexample :
    processBody ["i"]
      [(.aref (.ofId "a" (.id "i")),
        .aref (.ofId "b" (.binop "*" (.id "i") (.id "i"))))]
      ⟨[], []⟩ =
    (⟨[("b", [])], [("a", [[AccessDim.rel "i" 0]])]⟩,
      some KernelErr.unsupportedSubscript) := by
  decide

/-- Witness for C6 (amended) at the concrete `a[i] = b[i*i]` kernel. -/
theorem nonaffine_subscript_fails_witness :
    (∃ a ∈ [((LValue.aref (.ofId "a" (.id "i"))),
        RExpr.aref (.ofId "b" (.binop "*" (.id "i") (.id "i"))))],
      ∃ sub ∈ subscriptsOfAssign a, affineSubscript ["i"] sub = false) ∧
    (processBody ["i"]
      [(.aref (.ofId "a" (.id "i")),
        .aref (.ofId "b" (.binop "*" (.id "i") (.id "i"))))]
      ⟨[], []⟩).2 ≠ none :=
  ⟨by decide,
   nonaffine_subscript_fails ["i"]
     [(.aref (.ofId "a" (.id "i")),
       .aref (.ofId "b" (.binop "*" (.id "i") (.id "i"))))]
     ⟨[], []⟩ (by decide)⟩

/-! ## Claim C4: candidate lists across cache levels -/

lemma nodup_foldl_collect {α : Type} [DecidableEq α] :
    ∀ (l acc : List α), acc.Nodup →
      (l.foldl (fun acc k => if k ∈ acc then acc else acc ++ [k]) acc).Nodup := by
  intro l
  induction l with
  | nil => intro acc h; simpa using h
  | cons a t ih =>
    intro acc hacc
    rw [List.foldl_cons]
    by_cases h : a ∈ acc
    · rw [if_pos h]; exact ih acc hacc
    · rw [if_neg h]
      exact ih _ (by simpa [List.nodup_append] using ⟨hacc, h⟩)

lemma nodup_dedupKeys (l : List String) : (dedupKeys l).Nodup :=
  nodup_foldl_collect l [] List.nodup_nil

/-- `levelPairs` builds the same pair definitions at every level, only the
candidate lists differ. -/
lemma levelPairs_eq_map (m : KernelModel) (ro wo : OffsetMap)
    (acc acc' : List (Int × List ((String × String) × List Int)))
    (k k' : Int) :
    levelPairs m ro wo acc' k' = (levelPairs m ro wo acc k).map
      (fun pd => { pd with
        candidates := pairCandidates ro wo acc' k' pd.name pd.idxOrder }) := by
  unfold levelPairs
  rw [List.map_flatMap]
  congr 1
  funext v
  rw [List.map_map]
  congr 1

lemma levelPairs_keys_nodup (m : KernelModel) (ro wo : OffsetMap)
    (acc : List (Int × List ((String × String) × List Int))) (k : Int)
    (hnodup : (m._variables.map fun v => v.1).Nodup) :
    ((levelPairs m ro wo acc k).map fun pd => (pd.name, pd.idxOrder)).Nodup := by
  unfold levelPairs
  rw [List.map_flatMap, List.nodup_flatMap]
  constructor
  · intro v _
    rw [List.map_map]
    exact List.Nodup.map
      (fun a b hab => by simpa using congrArg Prod.snd hab)
      (nodup_dedupKeys _)
  · have hpw : m._variables.Pairwise (fun v w => v.1 ≠ w.1) :=
      List.pairwise_map.mp hnodup
    refine hpw.imp ?_
    intro v w hvw
    intro key hv hw
    dsimp only at hv hw
    rw [List.map_map] at hv hw
    obtain ⟨io, _, rfl⟩ := List.mem_map.mp hv
    obtain ⟨io', _, heq⟩ := List.mem_map.mp hw
    exact hvw (congrArg Prod.fst heq).symm

lemma lookup_map_of_nodup {γ α β : Type} [BEq α] [LawfulBEq α] :
    ∀ (l : List γ) (key : γ → α) (val : γ → β),
      ((l.map key).Nodup) → ∀ x ∈ l,
      (l.map fun y => (key y, val y)).lookup (key x) = some (val x) := by
  intro l
  induction l with
  | nil => intro _ _ _ x hx; exact absurd hx (List.not_mem_nil x)
  | cons y rest ih =>
    intro key val hnd x hx
    rw [List.map_cons, List.lookup_cons]
    by_cases h : key x = key y
    · rcases List.mem_cons.mp hx with rfl | hx
      · simp
      · exfalso
        have : key x ∈ rest.map key := List.mem_map_of_mem key hx
        rw [h] at this
        exact (List.nodup_cons.mp (by simpa using hnd)).1 this
    · have hbeq : (key x == key y) = false := beq_eq_false_iff_ne.mpr h
      rw [hbeq]
      rcases List.mem_cons.mp hx with rfl | hx
      · exact absurd rfl h
      · exact ih key val (List.nodup_cons.mp (by simpa using hnd)).2 x hx

lemma lookup_append_last {β : Type} :
    ∀ (acc : List (Int × β)) (k : Int) (pm : β),
      (∀ e ∈ acc, e.1 < k) → (acc ++ [(k, pm)]).lookup k = some pm := by
  intro acc
  induction acc with
  | nil => intro k pm _; simp [List.lookup_cons]
  | cons e rest ih =>
    intro k pm h
    rw [List.cons_append, List.lookup_cons]
    have hne : (k == e.1) = false := beq_eq_false_iff_ne.mpr
      (fun heq => absurd (heq ▸ h e (List.mem_cons_self _ _)) (lt_irrefl k))
    rw [hne]
    exact ih k pm fun e' he' => h e' (List.mem_cons_of_mem _ he')

/-- The trace result returned by a successful `levelLoop` is the backward
trace at the final trace length. -/
lemma levelLoop_ok_shape (epc cs : Int) (pairs : List PairDef) :
    ∀ (fuel : Nat) (tl : Int) (tr : TraceResult) (tlF : Int),
      levelLoop epc cs pairs fuel tl = .ok (tr, tlF) →
      tr = traceAllPairs epc tlF pairs := by
  intro fuel
  induction fuel with
  | zero => intro tl tr tlF h; exact absurd h (by simp [levelLoop])
  | succ n ih =>
    intro tl tr tlF h
    rw [levelLoop] at h
    by_cases hz : (traceAllPairs epc tl pairs).trace_count = 0
    · rw [if_pos hz] at h
      exact absurd h (by simp)
    · rw [if_neg hz] at h
      by_cases hgrow : tl < tl + pydiv (pydiv (pydiv cs 2 -
        (traceAllPairs epc tl pairs).cache_used_size)
          (traceAllPairs epc tl pairs).trace_count) element_size
      · rw [if_pos hgrow] at h
        exact ih _ tr tlF h
      · rw [if_neg hgrow] at h
        obtain ⟨h1, h2⟩ : traceAllPairs epc tl pairs = tr ∧ tl = tlF := by
          have := h
          injection this with hpair
          exact ⟨congrArg Prod.fst hpair, congrArg Prod.snd hpair⟩
        rw [← h1, ← h2]

/-- Core induction for C4: in a run over consecutively numbered levels,
the first level's pair definitions come from `levelPairs` at the starting
accumulator, and each later level's candidates are the previous level's
final misses. -/
lemma runLevels_adjacent (m : KernelModel) (ro wo : OffsetMap) (epc : Int)
    (fuel : Nat) (hnodup : (m._variables.map fun v => v.1).Nodup) :
    ∀ (stack : List (Int × Int × String × Option ℚ)) (k₀ : Int)
      (acc : List (Int × List ((String × String) × List Int)))
      (lvls : List LevelOut),
      stack.map (fun e => e.1) =
        (List.range stack.length).map (fun i : Nat => k₀ + (i : Int)) →
      (∀ e ∈ acc, e.1 < k₀) →
      runLevels m ro wo epc fuel stack acc = .ok lvls →
      (∀ lvl ∈ lvls.head?,
        lvl.pairs.map (fun p => (p.1.name, p.1.idxOrder, p.1.candidates)) =
          (levelPairs m ro wo acc k₀).map fun pd =>
            (pd.name, pd.idxOrder, pd.candidates)) ∧
      (∀ (i : Nat) (h1 : i < lvls.length) (h2 : i + 1 < lvls.length),
        (lvls.get ⟨i + 1, h2⟩).pairs.map
            (fun p => (p.1.name, p.1.idxOrder, p.1.candidates)) =
          (lvls.get ⟨i, h1⟩).pairs.map fun p =>
            (p.1.name, p.1.idxOrder, p.2.misses)) := by
  intro stack
  induction stack with
  | nil =>
    intro k₀ acc lvls _ _ hrun
    rw [runLevels] at hrun
    obtain rfl : lvls = [] := by
      injection hrun with h
      exact h.symm
    exact ⟨by simp, by intro i h1 h2; simp at h2⟩
  | cons hd rest ih =>
    intro k₀ acc lvls hconsec hacc hrun
    obtain ⟨k, sz, ty, cyc⟩ := hd
    rw [List.map_cons, List.length_cons, List.range_succ_eq_map, List.map_cons,
      List.map_map] at hconsec
    have hk : k = k₀ := by
      have := congrArg (fun l => l.head?) hconsec
      simpa using this
    subst hk
    have htail : rest.map (fun e => e.1) =
        (List.range rest.length).map fun i : Nat => (k + 1) + (i : Int) := by
      have := congrArg List.tail hconsec
      simp only [List.tail_cons] at this
      rw [this]
      apply List.map_congr_left
      intro i _
      simp only [Function.comp_apply]
      push_cast
      ring
    rw [runLevels] at hrun
    rcases hloop : levelLoop epc sz (levelPairs m ro wo acc k) fuel 0 with
      e | ⟨tr, tl⟩ <;> rw [hloop] at hrun
    · exact absurd hrun (by simp)
    · dsimp only at hrun
      rcases hrest : runLevels m ro wo epc fuel rest
          (acc ++ [(k, tr.pairs.map fun p =>
            ((p.1.name, p.1.idxOrder), p.2.misses))]) with e | out <;>
        rw [hrest] at hrun
      · exact absurd hrun (by simp)
      · dsimp only at hrun
        injection hrun with hlvls
        subst hlvls
        have htr : tr = traceAllPairs epc tl (levelPairs m ro wo acc k) :=
          levelLoop_ok_shape epc sz _ fuel 0 tr tl hloop
        have htrp : tr.pairs = (levelPairs m ro wo acc k).map fun pd =>
            (pd, tracePair epc tl pd) := by
          rw [htr]; rfl
        have hpm : tr.pairs.map (fun p => ((p.1.name, p.1.idxOrder), p.2.misses)) =
            (levelPairs m ro wo acc k).map fun pd =>
              ((pd.name, pd.idxOrder), (tracePair epc tl pd).misses) := by
          rw [htrp, List.map_map]
          rfl
        have hacc' : ∀ e ∈ acc ++ [(k, tr.pairs.map fun p =>
            ((p.1.name, p.1.idxOrder), p.2.misses))], e.1 < k + 1 := by
          intro e he
          rcases List.mem_append.mp he with he | he
          · have := hacc e he; omega
          · rw [List.mem_singleton.mp he]; omega
        have ihres := ih (k + 1) _ out htail hacc' hrest
        have hbound : (levelPairs m ro wo (acc ++ [(k, tr.pairs.map fun p =>
              ((p.1.name, p.1.idxOrder), p.2.misses))]) (k + 1)).map
            (fun pd => (pd.name, pd.idxOrder, pd.candidates)) =
            (levelPairs m ro wo acc k).map
              (fun pd => (pd.name, pd.idxOrder, (tracePair epc tl pd).misses)) := by
          rw [levelPairs_eq_map m ro wo acc _ k (k + 1), List.map_map]
          apply List.map_congr_left
          intro pd hpd
          simp only [Function.comp_apply]
          refine congrArg (fun c => (pd.name, pd.idxOrder, c)) ?_
          show pairCandidates ro wo _ (k + 1) pd.name pd.idxOrder = _
          unfold pairCandidates
          rw [show (k + 1 - 1 : Int) = k by ring,
            lookup_append_last acc k _ hacc]
          rw [hpm]
          dsimp only
          unfold lookupD
          rw [lookup_map_of_nodup (levelPairs m ro wo acc k)
            (fun pd => (pd.name, pd.idxOrder))
            (fun pd => (tracePair epc tl pd).misses)
            (levelPairs_keys_nodup m ro wo acc k hnodup) pd hpd]
          rfl
        constructor
        · intro lvl' hl'
          have : lvl' = _ := Option.mem_unique hl' rfl
          rw [this]
          show tr.pairs.map _ = _
          rw [htrp, List.map_map]
          rfl
        · intro i h1 h2
          match i, h1, h2 with
          | 0, h1, h2 =>
            rw [List.get_cons_succ]
            have hout : 0 < out.length := by
              simp only [List.length_cons] at h2
              omega
            have hhead : out.head? = some (out.get ⟨0, hout⟩) := by
              rcases out with _ | ⟨o, t⟩
              · simp at hout
              · rfl
            have h1' := ihres.1 _ (Option.mem_def.mpr hhead)
            rw [h1', hbound]
            show _ = tr.pairs.map _
            rw [htrp, List.map_map]
            rfl
          | Nat.succ j, h1, h2 =>
            have hj1 : j < out.length := by
              simp only [List.length_cons] at h1
              omega
            have hj2 : j + 1 < out.length := by
              simp only [List.length_cons] at h2
              omega
            have := ihres.2 j hj1 hj2
            simpa using this

/-- **C4**: In `calculate_cache_access` over a consecutively numbered cache
stack, the first cache level's miss-candidate list for every (variable,
index-order) pair is the combined read and write offsets sorted in
descending order, and every later level's candidate list is exactly a copy
of the previous level's remaining unresolved misses — the levels are
processed in stack (strictly increasing) order, so a later level only ever
sees offsets that missed at the level above. -/
theorem level_candidates (m : KernelModel) (ro wo : OffsetMap) (epc : Int)
    (fuel : Nat) (stack : List (Int × Int × String × Option ℚ))
    (lvls : List LevelOut) (k₀ : Int)
    (hnodup : (m._variables.map fun v => v.1).Nodup)
    (hconsec : stack.map (fun e => e.1) =
      (List.range stack.length).map fun i : Nat => k₀ + (i : Int))
    (hrun : runLevels m ro wo epc fuel stack [] = .ok lvls) :
    (∀ lvl ∈ lvls.head?,
      lvl.pairs.map (fun p => (p.1.name, p.1.idxOrder, p.1.candidates)) =
        (levelPairs m ro wo [] k₀).map fun pd =>
          (pd.name, pd.idxOrder, sortDesc
            (lookupD (lookupD ro pd.name []) pd.idxOrder [] ++
             lookupD (lookupD wo pd.name []) pd.idxOrder []))) ∧
    (∀ (i : Nat) (h1 : i < lvls.length) (h2 : i + 1 < lvls.length),
      (lvls.get ⟨i + 1, h2⟩).pairs.map
          (fun p => (p.1.name, p.1.idxOrder, p.1.candidates)) =
        (lvls.get ⟨i, h1⟩).pairs.map fun p =>
          (p.1.name, p.1.idxOrder, p.2.misses)) := by
  have h := runLevels_adjacent m ro wo epc fuel hnodup stack k₀ [] lvls
    hconsec (by simp) hrun
  refine ⟨?_, h.2⟩
  intro lvl hl
  rw [h.1 lvl hl]
  apply List.map_congr_left
  intro pd hpd
  refine congrArg (fun c => (pd.name, pd.idxOrder, c)) ?_
  obtain ⟨v, _, hv⟩ := List.mem_flatMap.mp hpd
  obtain ⟨io, _, rfl⟩ := List.mem_map.mp hv
  show pairCandidates ro wo [] k₀ v.1 io = _
  unfold pairCandidates
  rfl

/-- Witness for C4 on the miniature kernel/machine. -/
theorem level_candidates_witness :
    ((miniModel._variables.map fun v => v.1).Nodup) ∧
    (miniMachine.cache_stack.map (fun e => e.1) =
      (List.range miniMachine.cache_stack.length).map
        fun i : Nat => (1 : Int) + (i : Int)) ∧
    (∀ lvl ∈ miniLvls.head?,
      lvl.pairs.map (fun p => (p.1.name, p.1.idxOrder, p.1.candidates)) =
        (levelPairs miniModel miniRoWo.1 miniRoWo.2 [] 1).map fun pd =>
          (pd.name, pd.idxOrder, sortDesc
            (lookupD (lookupD miniRoWo.1 pd.name []) pd.idxOrder [] ++
             lookupD (lookupD miniRoWo.2 pd.name []) pd.idxOrder []))) ∧
    (∀ (i : Nat) (h1 : i < miniLvls.length) (h2 : i + 1 < miniLvls.length),
      (miniLvls.get ⟨i + 1, h2⟩).pairs.map
          (fun p => (p.1.name, p.1.idxOrder, p.1.candidates)) =
        (miniLvls.get ⟨i, h1⟩).pairs.map fun p =>
          (p.1.name, p.1.idxOrder, p.2.misses)) := by
  have h := level_candidates miniModel miniRoWo.1 miniRoWo.2 8 4
    miniMachine.cache_stack miniLvls 1 (by decide) (by decide) (by rfl)
  exact ⟨by decide, by decide, h.1, h.2⟩

/-! ## Claim C5: the emitted transition labels and costs -/

/-- **C5** (amended): every successful run returns exactly one entry per
cache level, in stack order; a level whose cycles-per-line value is truthy
(present and nonzero) contributes
`'L{k}-L{k+1}' ↦ round((lineMisses+lineEvicts)*c, 1)`, and a level whose
value is absent or zero contributes `'L{k}-MEM' ↦
round((lineMisses+lineEvicts)*elementsPerCacheline*elementSize/memBw*clock,
1)`; these labels are the only keys of the returned mapping. -/
theorem transition_costs (m : KernelModel) (machine : MachineModel)
    (fuel : Nat) (res : List (String × ℚ))
    (h : calculate_cache_access m machine fuel = .ok res) :
    ∃ ro wo lvls,
      calcOffsets m (pydiv machine.cl_size element_size) = .ok (ro, wo) ∧
      runLevels m ro wo (pydiv machine.cl_size element_size) fuel
        machine.cache_stack [] = .ok lvls ∧
      res = lvls.map (fun lvl =>
        levelCost (pydiv machine.cl_size element_size) machine.mem_bw
          machine.clock lvl.cache_level lvl.cache_cycles
          lvl.total_lines_misses lvl.total_lines_evicts) ∧
      (∀ lvl ∈ lvls,
        (truthy lvl.cache_cycles = true →
          ("L" ++ toString lvl.cache_level ++ "-L" ++
              toString (lvl.cache_level + 1),
            round1 (((lvl.total_lines_misses + lvl.total_lines_evicts : Int) : ℚ) *
              lvl.cache_cycles.getD 0)) ∈ res) ∧
        (truthy lvl.cache_cycles = false →
          ("L" ++ toString lvl.cache_level ++ "-MEM",
            round1 (((lvl.total_lines_misses + lvl.total_lines_evicts : Int) : ℚ) *
              ((pydiv machine.cl_size element_size) : ℚ) * (element_size : ℚ) /
              machine.mem_bw * machine.clock)) ∈ res)) := by
  rw [calculate_cache_access] at h
  rcases hoff : calcOffsets m (pydiv machine.cl_size element_size) with
    e | ⟨ro, wo⟩ <;> rw [hoff] at h
  · exact absurd h (by simp)
  · dsimp only at h
    rcases hrun : runLevels m ro wo (pydiv machine.cl_size element_size) fuel
        machine.cache_stack [] with e | lvls <;> rw [hrun] at h
    · exact absurd h (by simp)
    · dsimp only at h
      injection h with h
      refine ⟨ro, wo, lvls, rfl, hrun, h.symm, ?_⟩
      intro lvl hl
      constructor
      · intro ht
        rw [← h]
        refine List.mem_map.mpr ⟨lvl, hl, ?_⟩
        simp [levelCost, ht]
      · intro ht
        rw [← h]
        refine List.mem_map.mpr ⟨lvl, hl, ?_⟩
        simp [levelCost, ht]

/-- Counterexample to C5 as stated: on the SNB machine with the L1
transfer cost set to the present value `0`, the level-1 result is keyed
`'L1-MEM'` (and computed from memory bandwidth), not `'L1-L2'` — the
branch tests truthiness, not presence, of the cost. -/
theorem transition_costs_counterexample :
    (calculate_cache_access daxpyModel snbZeroMachine 10).toOption.map
        (fun res => res.map Prod.fst) =
      some ["L1-MEM", "L2-L3", "L3-MEM"] ∧
    "L1-L2" ∉ ["L1-MEM", "L2-L3", "L3-MEM"] :=
  ⟨rfl, by decide⟩

/-- Witness for C5 (amended) at DAXPY on the SNB machine. -/
theorem transition_costs_witness :
    calculate_cache_access daxpyModel snbMachine 10 =
      .ok [("L1-L2", 6), ("L2-L3", 6), ("L3-MEM", 13)] ∧
    ∃ ro wo lvls,
      calcOffsets daxpyModel (pydiv snbMachine.cl_size element_size) =
        .ok (ro, wo) ∧
      runLevels daxpyModel ro wo (pydiv snbMachine.cl_size element_size) 10
        snbMachine.cache_stack [] = .ok lvls ∧
      [("L1-L2", 6), ("L2-L3", 6), ("L3-MEM", 13)] = lvls.map (fun lvl =>
        levelCost (pydiv snbMachine.cl_size element_size) snbMachine.mem_bw
          snbMachine.clock lvl.cache_level lvl.cache_cycles
          lvl.total_lines_misses lvl.total_lines_evicts) ∧
      (∀ lvl ∈ lvls,
        (truthy lvl.cache_cycles = true →
          ("L" ++ toString lvl.cache_level ++ "-L" ++
              toString (lvl.cache_level + 1),
            round1 (((lvl.total_lines_misses + lvl.total_lines_evicts : Int) : ℚ) *
              lvl.cache_cycles.getD 0)) ∈
            ([("L1-L2", 6), ("L2-L3", 6), ("L3-MEM", 13)] : List (String × ℚ))) ∧
        (truthy lvl.cache_cycles = false →
          ("L" ++ toString lvl.cache_level ++ "-MEM",
            round1 (((lvl.total_lines_misses + lvl.total_lines_evicts : Int) : ℚ) *
              ((pydiv snbMachine.cl_size element_size) : ℚ) * (element_size : ℚ) /
              snbMachine.mem_bw * snbMachine.clock)) ∈
            ([("L1-L2", 6), ("L2-L3", 6), ("L3-MEM", 13)] : List (String × ℚ)))) :=
  ⟨by decide, transition_costs daxpyModel snbMachine 10
    [("L1-L2", 6), ("L2-L3", 6), ("L3-MEM", 13)] (by decide)⟩

/-! ## C3: monotone growth and termination of the trace-length loop -/

lemma Intervals.covered_nil :
    Intervals.covered (([] : List (Int × Int)) : Intervals) = ∅ := rfl

lemma Intervals.covered_cons (r : Int × Int) (rest : List (Int × Int)) :
    Intervals.covered ((r :: rest : List (Int × Int)) : Intervals) =
      Finset.Ico r.1 r.2 ∪ Intervals.covered (rest : Intervals) := rfl

lemma Intervals.covered_insertGo (s : List (Int × Int)) :
    ∀ a b : Int, Intervals.covered (Intervals.insertGo s a b : Intervals) =
      Finset.Ico a b ∪ Intervals.covered (s : Intervals) := by
  induction s with
  | nil => intro a b; rfl
  | cons hd rest ih =>
    intro a b
    obtain ⟨c, d⟩ := hd
    rw [Intervals.insertGo]
    by_cases h1 : b < c
    · rw [if_pos h1, Intervals.covered_cons, Intervals.covered_cons]
    · rw [if_neg h1]
      by_cases h2 : d < a
      · rw [if_pos h2, Intervals.covered_cons, ih, Intervals.covered_cons]
        rw [Finset.union_left_comm]
      · rw [if_neg h2, ih, Intervals.covered_cons]
        rw [← Finset.union_assoc,
          Finset.Ico_union_Ico' (le_of_not_lt h1) (le_of_not_lt h2)]

lemma Intervals.mem_covered_list (l : List (Int × Int)) (x : Int) :
    x ∈ Intervals.covered (l : Intervals) ↔ ∃ r ∈ l, r.1 ≤ x ∧ x < r.2 := by
  induction l with
  | nil => simp [Intervals.covered_nil]
  | cons hd rest ih =>
    rw [Intervals.covered_cons]
    simp only [Finset.mem_union, Finset.mem_Ico, List.mem_cons, ih]
    constructor
    · rintro (h | ⟨r, hr, h⟩)
      · exact ⟨hd, Or.inl rfl, h⟩
      · exact ⟨r, Or.inr hr, h⟩
    · rintro ⟨r, hr | hr, h⟩
      · exact Or.inl (hr ▸ h)
      · exact Or.inr ⟨r, hr, h⟩

lemma Intervals.covered_addRange (s : Intervals) (r : Int × Int) :
    (s.addRange r).covered = Finset.Ico r.1 r.2 ∪ s.covered := by
  unfold Intervals.addRange
  split
  · exact Intervals.covered_insertGo _ r.1 r.2
  · rw [Finset.Ico_eq_empty (by assumption), Finset.empty_union]

lemma Intervals.covered_subset_foldl (rs : List (Int × Int)) :
    ∀ s : Intervals, s.covered ⊆ (rs.foldl Intervals.addRange s).covered := by
  induction rs with
  | nil => intro s; rw [List.foldl_nil]
  | cons r rest ih =>
    intro s
    rw [List.foldl_cons]
    refine subset_trans ?_ (ih (s.addRange r))
    rw [Intervals.covered_addRange]
    exact Finset.subset_union_right

lemma Intervals.Ico_subset_foldl (rs : List (Int × Int)) :
    ∀ (s : Intervals) (r : Int × Int), r ∈ rs →
      Finset.Ico r.1 r.2 ⊆ (rs.foldl Intervals.addRange s).covered := by
  induction rs with
  | nil => intro s r hr; exact absurd hr (List.not_mem_nil r)
  | cons r0 rest ih =>
    intro s r hr
    rw [List.foldl_cons]
    rcases List.mem_cons.mp hr with h | h
    · subst h
      refine subset_trans ?_ (Intervals.covered_subset_foldl rest (s.addRange r))
      rw [Intervals.covered_addRange]
      exact Finset.subset_union_left
    · exact ih (s.addRange r0) r h

lemma Intervals.covered_subset_iunion_right (s t : Intervals) :
    t.covered ⊆ (s.iunion t).covered := by
  intro x hx
  obtain ⟨r, hr, h1, h2⟩ := (Intervals.mem_covered_list (t : List (Int × Int)) x).mp hx
  exact Intervals.Ico_subset_foldl _ s r hr (Finset.mem_Ico.mpr ⟨h1, h2⟩)

lemma Intervals.valid_insertGo (s : List (Int × Int)) :
    ∀ a b : Int, (∀ r ∈ s, r.1 < r.2) → a < b →
      ∀ r ∈ Intervals.insertGo s a b, r.1 < r.2 := by
  induction s with
  | nil =>
    intro a b _ hab r hr
    rw [Intervals.insertGo] at hr
    rcases List.mem_singleton.mp hr with rfl
    exact hab
  | cons hd rest ih =>
    intro a b hs hab r hr
    obtain ⟨c, d⟩ := hd
    rw [Intervals.insertGo] at hr
    by_cases h1 : b < c
    · rw [if_pos h1] at hr
      rcases List.mem_cons.mp hr with rfl | hr
      · exact hab
      · exact hs r hr
    · rw [if_neg h1] at hr
      by_cases h2 : d < a
      · rw [if_pos h2] at hr
        rcases List.mem_cons.mp hr with rfl | hr
        · exact hs (c, d) (List.mem_cons_self _ _)
        · exact ih a b (fun x hx => hs x (List.mem_cons_of_mem _ hx)) hab r hr
      · rw [if_neg h2] at hr
        exact ih (min a c) (max b d)
          (fun x hx => hs x (List.mem_cons_of_mem _ hx))
          (lt_of_le_of_lt (min_le_left a c) (lt_of_lt_of_le hab (le_max_left b d)))
          r hr

lemma Intervals.valid_addRange (s : Intervals) (r : Int × Int)
    (hs : Intervals.Valid s) : Intervals.Valid (s.addRange r) := by
  unfold Intervals.addRange
  split
  · exact Intervals.valid_insertGo s.toL r.1 r.2 hs (by assumption)
  · exact hs

lemma Intervals.valid_foldl (rs : List (Int × Int)) :
    ∀ s : Intervals, Intervals.Valid s →
      Intervals.Valid (rs.foldl Intervals.addRange s) := by
  induction rs with
  | nil => intro s hs; rw [List.foldl_nil]; exact hs
  | cons r rest ih =>
    intro s hs
    rw [List.foldl_cons]
    exact ih _ (Intervals.valid_addRange s r hs)

lemma Intervals.valid_iunion (s t : Intervals) (hs : Intervals.Valid s) :
    Intervals.Valid (s.iunion t) :=
  Intervals.valid_foldl _ s hs

lemma Intervals.valid_empty : Intervals.Valid Intervals.empty :=
  fun r hr => absurd hr (List.not_mem_nil r)

lemma Intervals.card_covered_le_size_list (l : List (Int × Int))
    (hl : ∀ r ∈ l, r.1 < r.2) :
    ((Intervals.covered (l : Intervals)).card : Int) ≤
      Intervals.size (l : Intervals) := by
  induction l with
  | nil => simp [Intervals.covered_nil, Intervals.size]
  | cons hd rest ih =>
    rw [Intervals.covered_cons]
    have hsz : Intervals.size ((hd :: rest : List (Int × Int)) : Intervals) =
        (hd.2 - hd.1) + Intervals.size (rest : Intervals) := by
      show ((hd :: rest).map fun r => r.2 - r.1).sum = _
      rw [List.map_cons, List.sum_cons]
      rfl
    rw [hsz]
    have h1 : ((Finset.Ico hd.1 hd.2 ∪
        Intervals.covered (rest : Intervals)).card : Int) ≤
        ((Finset.Ico hd.1 hd.2).card : Int) +
        ((Intervals.covered (rest : Intervals)).card : Int) := by
      exact_mod_cast Finset.card_union_le _ _
    have h2 : ((Finset.Ico hd.1 hd.2).card : Int) = hd.2 - hd.1 := by
      rw [Int.card_Ico]
      have := hl hd (List.mem_cons_self _ _)
      omega
    have h3 := ih (fun r hr => hl r (List.mem_cons_of_mem _ hr))
    linarith

lemma Intervals.card_covered_le_size (s : Intervals)
    (hs : Intervals.Valid s) : (s.covered.card : Int) ≤ s.size :=
  Intervals.card_covered_le_size_list s.toL hs

lemma Intervals.size_nonneg (s : Intervals) (hs : Intervals.Valid s) :
    0 ≤ s.size :=
  le_trans (Int.natCast_nonneg _) (Intervals.card_covered_le_size s hs)

lemma traceStep_cache (epc tl it : Int) (st : PairState) (o : Int) :
    (traceStep epc tl it st o).cache =
      if it ≤ epc then
        st.cache.addRange
          ((_expand_to_cacheline_blocks epc (o - it * tl) (o + 1)).1,
           (_expand_to_cacheline_blocks epc (o - it * tl) (o + 1)).2 + 1)
      else
        st.cache.iunion (Intervals.ofRanges
          ((pyRange (o - it * tl) (o + 1) it).map fun x =>
            ((_expand_to_cacheline_blocks epc x x).1,
             (_expand_to_cacheline_blocks epc x x).2))) := by
  unfold traceStep
  by_cases h : st.cache.containsB o
  · rw [if_pos h]
  · rw [if_neg h]

lemma traceStep_valid (epc tl it : Int) (st : PairState) (o : Int)
    (hv : st.cache.Valid) : (traceStep epc tl it st o).cache.Valid := by
  rw [traceStep_cache]
  split
  · exact Intervals.valid_addRange _ _ hv
  · exact Intervals.valid_iunion _ _ hv

lemma foldl_traceStep_valid (epc tl it : Int) (l : List Int) :
    ∀ st : PairState, st.cache.Valid →
      (l.foldl (traceStep epc tl it) st).cache.Valid := by
  induction l with
  | nil => intro st hv; rw [List.foldl_nil]; exact hv
  | cons o rest ih =>
    intro st hv
    rw [List.foldl_cons]
    exact ih _ (traceStep_valid epc tl it st o hv)

lemma tracePair_valid (epc tl : Int) (pd : PairDef) :
    (tracePair epc tl pd).cache.Valid := by
  unfold tracePair
  exact foldl_traceStep_valid epc tl pd.iterOffset pd.candidates _
    Intervals.valid_empty

lemma covered_card_traceStep (epc tl it : Int) (st : PairState) (o : Int)
    (hio : 1 ≤ it) (hepc : 2 ≤ epc) (htl : 0 ≤ tl) :
    tl + 1 ≤ ((traceStep epc tl it st o).cache.covered.card : Int) := by
  rw [traceStep_cache]
  by_cases h : it ≤ epc
  · rw [if_pos h, Intervals.covered_addRange]
    set fl := _expand_to_cacheline_blocks epc (o - it * tl) (o + 1) with hfl
    have hm1 : 0 ≤ Int.fmod (o - it * tl) epc :=
      Int.fmod_nonneg' _ (by linarith)
    have hm2 : Int.fmod (o + 1) epc < epc :=
      Int.fmod_lt_of_pos _ (by linarith)
    have hfl1 : fl.1 = (o - it * tl) - Int.fmod (o - it * tl) epc := rfl
    have hfl2 : fl.2 = (o + 1) - Int.fmod (o + 1) epc + epc - 1 := rfl
    have hmul : tl ≤ it * tl := le_mul_of_one_le_left htl hio
    have hlen : tl + 1 ≤ fl.2 + 1 - fl.1 := by
      rw [hfl1, hfl2]; linarith
    have hcard : ((Finset.Ico fl.1 (fl.2 + 1)).card : Int) = fl.2 + 1 - fl.1 := by
      rw [Int.card_Ico]; omega
    have hsub : (Finset.Ico fl.1 (fl.2 + 1)).card ≤
        (Finset.Ico fl.1 (fl.2 + 1) ∪ st.cache.covered).card :=
      Finset.card_le_card Finset.subset_union_left
    have := (Int.ofNat_le.mpr hsub)
    push_cast at this
    linarith
  · rw [if_neg h]
    have hit : epc < it := lt_of_not_le h
    set n : Nat := (tl + 1).toNat with hn
    have hlen : pyRange (o - it * tl) (o + 1) it =
        (List.range n).map (fun k : Nat => (o - it * tl) + it * (k : Int)) := by
      unfold pyRange
      rw [if_neg (not_le.mpr (by linarith : (0 : Int) < it))]
      have harith : o + 1 - (o - it * tl) + it - 1 = it * (tl + 1) := by ring
      rw [harith]
      unfold pydiv
      rw [Int.mul_fdiv_cancel_left (tl + 1) (by linarith : it ≠ 0)]
      simp only [List.pure_def, List.bind_eq_flatMap]
      rw [List.map_flatMap]
      simp only [List.map_cons, List.map_nil]
      rw [List.map_eq_flatMap]
    set q : Nat → Int := fun k =>
      ((o - it * tl) + it * (k : Int)) -
        Int.fmod ((o - it * tl) + it * (k : Int)) epc with hq
    have hqmem : ∀ k ∈ Finset.range n,
        q k ∈ (st.cache.iunion (Intervals.ofRanges
          ((pyRange (o - it * tl) (o + 1) it).map fun x =>
            ((_expand_to_cacheline_blocks epc x x).1,
             (_expand_to_cacheline_blocks epc x x).2)))).covered := by
      intro k hk
      apply Intervals.covered_subset_iunion_right
      set p : Int := (o - it * tl) + it * (k : Int) with hp
      have hblk : ((_expand_to_cacheline_blocks epc p p).1,
          (_expand_to_cacheline_blocks epc p p).2) ∈
          ((pyRange (o - it * tl) (o + 1) it).map fun x =>
            ((_expand_to_cacheline_blocks epc x x).1,
             (_expand_to_cacheline_blocks epc x x).2)) := by
        apply List.mem_map_of_mem
        rw [hlen]
        exact List.mem_map_of_mem _ (List.mem_range.mpr (Finset.mem_range.mp hk))
      refine Intervals.Ico_subset_foldl _ Intervals.empty _ hblk ?_
      have he1 : (_expand_to_cacheline_blocks epc p p).1 =
          p - Int.fmod p epc := rfl
      have he2 : (_expand_to_cacheline_blocks epc p p).2 =
          p - Int.fmod p epc + epc - 1 := by
        show p - Int.fmod p epc + epc - 1 = _
        rfl
      rw [Finset.mem_Ico, he1, he2]
      constructor
      · exact le_refl _
      · have hqk : q k = p - Int.fmod p epc := rfl
        linarith
    have hsm : StrictMono q := by
      apply strictMono_nat_of_lt_succ
      intro k
      have h1 : 0 ≤ Int.fmod ((o - it * tl) + it * (k : Int)) epc :=
        Int.fmod_nonneg' _ (by linarith)
      have h2 : Int.fmod ((o - it * tl) + it * ((k : Int) + 1)) epc < epc :=
        Int.fmod_lt_of_pos _ (by linarith)
      have hpush : ((k + 1 : Nat) : Int) = (k : Int) + 1 := by push_cast; ring
      show q k < q (k + 1)
      rw [hq]
      dsimp only
      rw [hpush]
      have hexp : (o - it * tl) + it * ((k : Int) + 1) =
          ((o - it * tl) + it * (k : Int)) + it := by ring
      linarith [hexp ▸ h2]
    have hcardle : n ≤ ((st.cache.iunion (Intervals.ofRanges
        ((pyRange (o - it * tl) (o + 1) it).map fun x =>
          ((_expand_to_cacheline_blocks epc x x).1,
           (_expand_to_cacheline_blocks epc x x).2)))).covered).card := by
      have := Finset.card_le_card_of_injOn q hqmem
        (hsm.injective.injOn)
      rwa [Finset.card_range] at this
    have : (n : Int) ≤ _ := Int.ofNat_le.mpr hcardle
    omega

lemma tracePair_card_lower (epc tl : Int) (pd : PairDef)
    (hc : pd.candidates ≠ []) (hio : 1 ≤ pd.iterOffset) (hepc : 2 ≤ epc)
    (htl : 0 ≤ tl) :
    tl + 1 ≤ (((tracePair epc tl pd).cache.covered.card : Int)) := by
  obtain ⟨l, o, hlo⟩ := (List.eq_nil_or_concat pd.candidates).resolve_left hc
  rw [List.concat_eq_append] at hlo
  unfold tracePair
  rw [hlo, List.foldl_append, List.foldl_cons, List.foldl_nil]
  exact covered_card_traceStep epc tl pd.iterOffset _ o hio hepc htl

lemma tracePair_size_lower (epc tl : Int) (pd : PairDef)
    (hc : pd.candidates ≠ []) (hio : 1 ≤ pd.iterOffset) (hepc : 2 ≤ epc)
    (htl : 0 ≤ tl) :
    tl + 1 ≤ (tracePair epc tl pd).cache.size :=
  le_trans (tracePair_card_lower epc tl pd hc hio hepc htl)
    (Intervals.card_covered_le_size _ (tracePair_valid epc tl pd))

lemma cache_used_lower (epc tl : Int) (pairs : List PairDef)
    (hp : pairs ≠ []) (hc : ∀ pd ∈ pairs, pd.candidates ≠ [])
    (hio : ∀ pd ∈ pairs, 1 ≤ pd.iterOffset) (hepc : 2 ≤ epc) (htl : 0 ≤ tl) :
    (tl + 1) * 8 ≤ (traceAllPairs epc tl pairs).cache_used_size := by
  rcases pairs with _ | ⟨pd0, rest⟩
  · exact absurd rfl hp
  have hshape : (traceAllPairs epc tl (pd0 :: rest)).cache_used_size =
      (tracePair epc tl pd0).cache.size * element_size +
      ((rest.map fun pd => (pd, tracePair epc tl pd)).map
        fun p => p.2.cache.size * element_size).sum := by
    show ((((pd0 :: rest).map fun pd => (pd, tracePair epc tl pd)).map
      fun p => p.2.cache.size * element_size)).sum = _
    rw [List.map_cons, List.map_cons, List.sum_cons]
  rw [hshape]
  have hrest : 0 ≤ ((rest.map fun pd => (pd, tracePair epc tl pd)).map
      fun p => p.2.cache.size * element_size).sum := by
    apply List.sum_nonneg
    intro x hx
    obtain ⟨p, hpmem, rfl⟩ := List.mem_map.mp hx
    obtain ⟨pd, _, rfl⟩ := List.mem_map.mp hpmem
    have := Intervals.size_nonneg _ (tracePair_valid epc tl pd)
    show (0 : Int) ≤ _ * element_size
    have h8 : element_size = 8 := rfl
    rw [h8]
    linarith
  have hhead : tl + 1 ≤ (tracePair epc tl pd0).cache.size :=
    tracePair_size_lower epc tl pd0 (hc pd0 (List.mem_cons_self _ _))
      (hio pd0 (List.mem_cons_self _ _)) hepc htl
  have h8 : element_size = 8 := rfl
  rw [h8] at hrest ⊢
  linarith

lemma trace_count_nonneg (epc tl : Int) (pairs : List PairDef) :
    0 ≤ (traceAllPairs epc tl pairs).trace_count := by
  apply List.sum_nonneg
  intro x hx
  obtain ⟨p, _, rfl⟩ := List.mem_map.mp hx
  exact Int.natCast_nonneg _

lemma growth_nonpos (cs used count : Int) (hused : pydiv cs 2 ≤ used)
    (hcount : 1 ≤ count) :
    pydiv (pydiv (pydiv cs 2 - used) count) element_size ≤ 0 := by
  have h1 : pydiv cs 2 - used ≤ 0 := by linarith
  have h2 : pydiv (pydiv cs 2 - used) count ≤ 0 := by
    unfold pydiv
    rw [Int.fdiv_eq_ediv _ (by linarith : (0 : Int) ≤ count)]
    calc (Int.fdiv cs 2 - used) / count ≤ 0 / count :=
          Int.ediv_le_ediv (by linarith) h1
      _ = 0 := Int.zero_ediv count
  have h8 : element_size = 8 := rfl
  rw [h8]
  show Int.fdiv _ 8 ≤ 0
  rw [Int.fdiv_eq_ediv _ (by norm_num : (0 : Int) ≤ 8)]
  calc pydiv (pydiv cs 2 - used) count / 8 ≤ 0 / 8 :=
        Int.ediv_le_ediv (by norm_num) h2
    _ = 0 := Int.zero_ediv 8

lemma levelLoop_mono (epc cs : Int) (pairs : List PairDef) :
    ∀ (fuel : Nat) (tl : Int) (tr : TraceResult) (tlF : Int),
      levelLoop epc cs pairs fuel tl = .ok (tr, tlF) → tl ≤ tlF := by
  intro fuel
  induction fuel with
  | zero => intro tl tr tlF h; exact absurd h (by simp [levelLoop])
  | succ n ih =>
    intro tl tr tlF h
    rw [levelLoop] at h
    by_cases hz : (traceAllPairs epc tl pairs).trace_count = 0
    · rw [if_pos hz] at h
      exact absurd h (by simp)
    · rw [if_neg hz] at h
      by_cases hgrow : tl < tl + pydiv (pydiv (pydiv cs 2 -
        (traceAllPairs epc tl pairs).cache_used_size)
          (traceAllPairs epc tl pairs).trace_count) element_size
      · rw [if_pos hgrow] at h
        exact le_of_lt (lt_of_lt_of_le hgrow (ih _ tr tlF h))
      · rw [if_neg hgrow] at h
        injection h with h'
        exact le_of_eq (congrArg Prod.snd h')

lemma levelLoop_exit (epc cs : Int) (pairs : List PairDef) (fuel : Nat)
    (tl : Int)
    (hcount : (traceAllPairs epc tl pairs).trace_count ≠ 0)
    (hg : pydiv (pydiv (pydiv cs 2 -
        (traceAllPairs epc tl pairs).cache_used_size)
      (traceAllPairs epc tl pairs).trace_count) element_size ≤ 0) :
    levelLoop epc cs pairs (fuel + 1) tl =
      .ok (traceAllPairs epc tl pairs, tl) := by
  rw [levelLoop, if_neg hcount, if_neg (by linarith : ¬ tl < tl +
    pydiv (pydiv (pydiv cs 2 - (traceAllPairs epc tl pairs).cache_used_size)
      (traceAllPairs epc tl pairs).trace_count) element_size)]

lemma levelLoop_fuel (epc cs : Int) (pairs : List PairDef)
    (hp : pairs ≠ []) (hc : ∀ pd ∈ pairs, pd.candidates ≠ [])
    (hio : ∀ pd ∈ pairs, 1 ≤ pd.iterOffset) (hepc : 2 ≤ epc) :
    ∀ (n : Nat) (tl : Int) (fuel : Nat), 0 ≤ tl →
      pydiv (pydiv cs 2) 8 ≤ tl + n → n + 1 ≤ fuel →
      levelLoop epc cs pairs fuel tl ≠ .error .outOfFuel := by
  have key : ∀ (tl : Int), 0 ≤ tl → pydiv (pydiv cs 2) 8 ≤ tl →
      (traceAllPairs epc tl pairs).trace_count ≠ 0 →
      ¬ tl < tl + pydiv (pydiv (pydiv cs 2 -
          (traceAllPairs epc tl pairs).cache_used_size)
        (traceAllPairs epc tl pairs).trace_count) element_size := by
    intro tl htl hT hz
    have hcount : 1 ≤ (traceAllPairs epc tl pairs).trace_count :=
      lt_of_le_of_ne (trace_count_nonneg epc tl pairs) (Ne.symm hz)
    have hused := cache_used_lower epc tl pairs hp hc hio hepc htl
    have hlt : pydiv cs 2 < (pydiv (pydiv cs 2) 8 + 1) * 8 := by
      show Int.fdiv cs 2 < (Int.fdiv (Int.fdiv cs 2) 8 + 1) * 8
      rw [Int.fdiv_eq_ediv (Int.fdiv cs 2) (by norm_num : (0 : Int) ≤ 8)]
      exact Int.lt_ediv_add_one_mul_self (Int.fdiv cs 2)
        (by norm_num : (0 : Int) < 8)
    have hused2 : pydiv cs 2 ≤ (traceAllPairs epc tl pairs).cache_used_size := by
      linarith
    have := growth_nonpos cs (traceAllPairs epc tl pairs).cache_used_size
      (traceAllPairs epc tl pairs).trace_count hused2 hcount
    linarith
  intro n
  induction n with
  | zero =>
    intro tl fuel htl hT hf
    obtain ⟨m, rfl⟩ : ∃ m, fuel = m + 1 := ⟨fuel - 1, by omega⟩
    rw [levelLoop]
    by_cases hz : (traceAllPairs epc tl pairs).trace_count = 0
    · rw [if_pos hz]; simp
    · rw [if_neg hz, if_neg (key tl htl (by omega) hz)]
      simp
  | succ n ih =>
    intro tl fuel htl hT hf
    obtain ⟨m, rfl⟩ : ∃ m, fuel = m + 1 := ⟨fuel - 1, by omega⟩
    rw [levelLoop]
    by_cases hz : (traceAllPairs epc tl pairs).trace_count = 0
    · rw [if_pos hz]; simp
    · rw [if_neg hz]
      by_cases hgrow : tl < tl + pydiv (pydiv (pydiv cs 2 -
          (traceAllPairs epc tl pairs).cache_used_size)
        (traceAllPairs epc tl pairs).trace_count) element_size
      · rw [if_pos hgrow]
        refine ih _ m (by linarith) ?_ (by omega)
        have : tl + 1 ≤ tl + pydiv (pydiv (pydiv cs 2 -
            (traceAllPairs epc tl pairs).cache_used_size)
          (traceAllPairs epc tl pairs).trace_count) element_size := hgrow
        push_cast at hT
        linarith
      · rw [if_neg hgrow]
        simp

/-- **C3.**  Within each cache level of `calculate_cache_access`, the
fixed-point convergence loop never assigns `trace_length` a value smaller
than its current value (the final trace length is at least the starting
one, every continuing iteration strictly increasing it); for a level whose
pairs all have candidates and positive iteration offsets, with at least two
elements per cacheline and a cache of at least 32 bytes, the loop
terminates within `cache_size / element_size` iterations (the level's
capacity in elements); and it exits — returning the current trace and
trace length — as soon as the computed growth is not positive. -/
theorem trace_length_monotone_terminates
    (epc cs : Int) (pairs : List PairDef)
    (hp : pairs ≠ []) (hc : ∀ pd ∈ pairs, pd.candidates ≠ [])
    (hio : ∀ pd ∈ pairs, 1 ≤ pd.iterOffset)
    (hepc : 2 ≤ epc) (hcs : 32 ≤ cs) (tl : Int) (htl : 0 ≤ tl) :
    (∀ (fuel : Nat) (tr : TraceResult) (tlF : Int),
        levelLoop epc cs pairs fuel tl = .ok (tr, tlF) → tl ≤ tlF)
    ∧ levelLoop epc cs pairs (pydiv cs element_size).toNat tl ≠
        .error .outOfFuel
    ∧ (∀ fuel : Nat,
        (traceAllPairs epc tl pairs).trace_count ≠ 0 →
        pydiv (pydiv (pydiv cs 2 -
            (traceAllPairs epc tl pairs).cache_used_size)
          (traceAllPairs epc tl pairs).trace_count) element_size ≤ 0 →
        levelLoop epc cs pairs (fuel + 1) tl =
          .ok (traceAllPairs epc tl pairs, tl)) := by
  refine ⟨fun fuel tr tlF h => levelLoop_mono epc cs pairs fuel tl tr tlF h,
    ?_, fun fuel h1 h2 => levelLoop_exit epc cs pairs fuel tl h1 h2⟩
  have hdiv : pydiv (pydiv cs 2) 8 + 2 ≤ pydiv cs element_size := by
    show Int.fdiv (Int.fdiv cs 2) 8 + 2 ≤ Int.fdiv cs 8
    rw [Int.fdiv_eq_ediv cs (by norm_num : (0 : Int) ≤ 2),
      Int.fdiv_eq_ediv (cs / 2) (by norm_num : (0 : Int) ≤ 8),
      Int.fdiv_eq_ediv cs (by norm_num : (0 : Int) ≤ 8)]
    omega
  have hFpos : 2 ≤ pydiv cs element_size := by
    have hT0 : 0 ≤ pydiv (pydiv cs 2) 8 := by
      show (0 : Int) ≤ Int.fdiv (Int.fdiv cs 2) 8
      rw [Int.fdiv_eq_ediv cs (by norm_num : (0 : Int) ≤ 2),
        Int.fdiv_eq_ediv (cs / 2) (by norm_num : (0 : Int) ≤ 8)]
      omega
    linarith
  refine levelLoop_fuel epc cs pairs hp hc hio hepc
    ((pydiv cs element_size).toNat - 1) tl _ htl ?_ (by omega)
  have : (((pydiv cs element_size).toNat - 1 : Nat) : Int) =
      pydiv cs element_size - 1 := by omega
  rw [this]
  linarith

theorem trace_length_monotone_terminates_witness :
    levelLoop 8 32768 [⟨"a", "i", 1, [1, 0]⟩]
        (pydiv 32768 element_size).toNat 0 ≠ .error .outOfFuel :=
  (trace_length_monotone_terminates 8 32768 [⟨"a", "i", 1, [1, 0]⟩]
    (by decide) (by decide) (by decide) (by decide) (by decide) 0
    (by decide)).2.1

end Kerncraft
